import Mathlib

/-!
Verification of the Apache Juneau developer-workflow scripts.

This file gives a shallow embedding, in Lean 4, of the parts of the
repository's Python scripts that the specification makes claims about:

* `scripts/release.py` — the `ReleaseState` JSON checkpoint store, the
  `should_run_step` step-selection logic, the `run` step loop (including
  `--resume`, `--start-step`, `--skip-step` and `KeyboardInterrupt`
  handling), and `run_command` / `fail`.  These embed the function
  bodies as written.  Note that the module as a whole does not compile:
  release.py line 1067 (`rc_match = re.search(RC_PATTERN, release)`, in
  `_generate_vote_email`) is indented twelve spaces inside the
  eight-space suite of the method body, which is an `IndentationError`.
  Python compiles a script before executing any of it, so every actual
  invocation of release.py prints a traceback and exits 1 at module
  load, executing no step, no command, and no state write.  The
  release.py theorems below are therefore facts about the embedded
  functions, not about invocations of the script.
* `scripts/build-and-test.py` — argument parsing and the build/test
  command phases of `main`.
* `scripts/cleanup-whitespace.py` — the whitespace-cleaning
  transformation of `clean_java_file`.

Python strings are modelled as `List Char`, Python dicts holding the
JSON checkpoint as association lists with last-write-wins update, and
subprocess exit codes as `Int`.  Interaction with the outside world
(the exit codes returned by external tools, whether a step receives a
KeyboardInterrupt, whether filesystem paths exist) is passed in as
explicit parameters.  External commands themselves are not executed.
-/

namespace Juneau

/-! ## Python dict as association list (last-write-wins) -/

/-- Python `d[key] = value` on a dict: replace the binding if the key is
present, otherwise append it.  Models `self.data[key] = value` in
`ReleaseState.set` (release.py line 98). -/
def dictSet : List (String × String) → String → String → List (String × String)
  | [], k, v => [(k, v)]
  | (k', v') :: rest, k, v =>
    if k' = k then (k, v) :: rest else (k', v') :: dictSet rest k v

/-- Python `d.get(key)` on a dict: the value bound to `key`, if any.
Models `self.data.get(key, default)` with the default `None`
(release.py line 94). -/
def dictGet : List (String × String) → String → Option String
  | [], _ => none
  | (k', v') :: rest, k => if k' = k then some v' else dictGet rest k

/-! ## ReleaseState (release.py lines 67-113)

`data` is the in-memory dict; `file` is the content of the JSON state
file `~/.juneau-release-state.json` (`none` when the file does not
exist).  The file write in `save` is assumed to succeed (the Python
code prints a warning and continues if it does not). -/

structure ReleaseState where
  data : List (String × String)
  file : Option (List (String × String))
deriving DecidableEq, Repr

/-- `ReleaseState.save`: dump the whole in-memory dict to the state file. -/
def ReleaseState.save (s : ReleaseState) : ReleaseState :=
  { s with file := some s.data }

/-- `ReleaseState.set`: bind `key` to `value` and immediately `save`. -/
def ReleaseState.set (s : ReleaseState) (k v : String) : ReleaseState :=
  ReleaseState.save { s with data := dictSet s.data k v }

/-- `ReleaseState.get` with the default `None`. -/
def ReleaseState.get (s : ReleaseState) (k : String) : Option String :=
  dictGet s.data k

/-- `ReleaseState.clear`: empty the dict and delete the state file. -/
def ReleaseState.clear (s : ReleaseState) : ReleaseState :=
  { s with data := [], file := none }

/-- `ReleaseState.get_last_step`: `self.data.get('last_step')`. -/
def ReleaseState.get_last_step (s : ReleaseState) : Option String :=
  s.get "last_step"

/-- `ReleaseState.set_last_step`: `self.set('last_step', step)`. -/
def ReleaseState.set_last_step (s : ReleaseState) (step : String) : ReleaseState :=
  s.set "last_step" step

/-! ## Step selection (release.py lines 416-442) -/

/-- Python `list.index`, returning `none` instead of raising `ValueError`:
the position of the first occurrence of `x`. -/
def pyIndex : List String → String → Option Nat
  | [], _ => none
  | s :: rest, x => if s = x then some 0 else (pyIndex rest x).map (· + 1)

/-- Python truthiness of an optional string: `None` and `''` are falsy. -/
def optTruthy : Option String → Bool
  | none => false
  | some s => s ≠ ""

/-- Outcome of `should_run_step` for one step: run it, skip it, or call
`self.fail` because the start step is unknown (which exits the process
with code 1). -/
inductive StepDecision where
  | runStep
  | skipStep
  | failUnknownStart
deriving DecidableEq, Repr

/-- `ReleaseScript.should_run_step` (release.py lines 416-442), with the
instance attributes passed explicitly: the ordered `steps` list,
`skip_steps`, `resume`, the current `state.get_last_step()` and
`start_step`.  A `ValueError` from `list.index` in the resume branch
falls through (`pass`); in the start-step branch it triggers
`self.fail("Unknown start step: ...")`. -/
def should_run_step (steps skip_steps : List String) (resume : Bool)
    (last_step start_step : Option String) (step_name : String) : StepDecision :=
  if step_name ∈ skip_steps then .skipStep
  else
    let resumeDecision : Option Bool :=
      if resume then
        match last_step with
        | some ls =>
          if ls ≠ "" then
            match pyIndex steps ls, pyIndex steps step_name with
            | some last_idx, some step_idx => some (decide (step_idx > last_idx))
            | _, _ => none
          else none
        | none => none
      else none
    match resumeDecision with
    | some b => if b then .runStep else .skipStep
    | none =>
      match start_step with
      | some ss =>
        if ss ≠ "" then
          match pyIndex steps ss, pyIndex steps step_name with
          | some start_idx, some step_idx =>
            if step_idx ≥ start_idx then .runStep else .skipStep
          | _, _ => .failUnknownStart
        else .runStep
      | none => .runStep

/-- The ordered step list of `ReleaseScript.__init__`
(release.py lines 132-146). -/
def stepsList : List String :=
  ["check_prerequisites",
   "check_java_version",
   "check_maven_version",
   "clean_maven_repo",
   "make_git_folder",
   "clone_juneau",
   "configure_git",
   "run_clean_verify",
   "run_deploy",
   "run_release_prepare",
   "run_release_perform",
   "create_binary_artifacts",
   "verify_distribution"]

/-! ## The run loop (release.py lines 1253-1323) -/

/-- The command-line flags consumed by `ReleaseScript.run`: `--resume`,
`--start-step`, and the collected `--skip-step` values. -/
structure RunConfig where
  resume : Bool
  start_step : Option String
  skip_steps : List String

/-- How a call of `ReleaseScript.run` ends:
`success` — the loop finished and `self.success()` ran (exit 0);
`unknownStart` — `should_run_step` called `self.fail` (exit 1);
`interrupted printed stateLast` — a `KeyboardInterrupt` arrived while a
step was executing: the script prints
`"Last completed step: {printed}"` (naming the step that was running)
and exits 1; `stateLast` records the checkpoint value
`state.get_last_step()` at that moment, i.e. the step that actually
completed last. -/
inductive RunOutcome where
  | success
  | unknownStart
  | interrupted (printed : String) (stateLast : Option String)
deriving DecidableEq, Repr

/-- Result of a call of `ReleaseScript.run`: the steps whose method ran to
completion (in order), the trace of (step, state-just-after-it) pairs,
the final state, the outcome and the process exit code. -/
structure RunResult where
  completed : List String
  trace : List (String × ReleaseState)
  finalState : ReleaseState
  outcome : RunOutcome
  exitCode : Nat
deriving Repr

/-- The `for step_name in self.steps` loop of `ReleaseScript.run`
(release.py lines 1305-1323).  `extra` abstracts the state writes a
step method performs before its final checkpoint write (for example
`run_release_perform` stores `X_REPO`); every step method ends with
`self.state.set_last_step('<its own name>')`.  `intr s = true` means a
`KeyboardInterrupt` arrives while step `s` executes, before its
checkpoint write.  External commands and prompts inside the steps are
not modelled here. -/
def runLoop (cfg : RunConfig) (startStep : Option String)
    (extra : String → ReleaseState → ReleaseState) (intr : String → Bool) :
    List String → ReleaseState → List String → List (String × ReleaseState) → RunResult
  | [], st, acc, tr =>
    -- loop finished: self.success() clears the state and exits 0
    ⟨acc.reverse, tr.reverse, st.clear, .success, 0⟩
  | s :: rest, st, acc, tr =>
    match should_run_step stepsList cfg.skip_steps cfg.resume
        st.get_last_step startStep s with
    | .failUnknownStart => ⟨acc.reverse, tr.reverse, st, .unknownStart, 1⟩
    | .skipStep => runLoop cfg startStep extra intr rest st acc tr
    | .runStep =>
      if intr s then
        ⟨acc.reverse, tr.reverse, st, .interrupted s st.get_last_step, 1⟩
      else
        let st' := (extra s st).set_last_step s
        runLoop cfg startStep extra intr rest st' (s :: acc) ((s, st') :: tr)

/-- The body of `ReleaseScript.run` (release.py lines 1292-1323): the
resume pre-pass first moves `start_step` to the step after the
checkpointed `last_step` (when `last_step` is truthy, is found in the
list, and is not the final step), then the step loop runs.  This embeds
the method as written; it is not the semantics of a release.py
invocation — because of the `IndentationError` at release.py line 1067
the module never compiles, so no actual invocation reaches this code
(every invocation exits 1 at module load). -/
def releaseRun (cfg : RunConfig) (st0 : ReleaseState)
    (extra : String → ReleaseState → ReleaseState) (intr : String → Bool) : RunResult :=
  let startStep :=
    if cfg.resume then
      match st0.get_last_step with
      | some ls =>
        if ls ≠ "" then
          match pyIndex stepsList ls with
          | some last_idx =>
            if last_idx < stepsList.length - 1 then
              some (stepsList.getD (last_idx + 1) "")
            else cfg.start_step
          | none => cfg.start_step
        else cfg.start_step
      | none => cfg.start_step
    else cfg.start_step
  runLoop cfg startStep extra intr stepsList st0 [] []

/-! ## run_command and fail (release.py lines 358-365 and 383-401) -/

/-- A completed subprocess, reduced to its return code
(`subprocess.CompletedProcess.returncode`). -/
structure CompletedProcess where
  returncode : Int
deriving DecidableEq, Repr

/-- Result of `ReleaseScript.run_command`: either the script exited via
`self.fail` (printing the given failure message and the FAILED banner,
then `sys.exit(code)`), or the call returned the completed process. -/
inductive CmdResult where
  | exited (code : Nat) (msg : String)
  | completed (p : CompletedProcess)
deriving DecidableEq, Repr

/-- The message `ReleaseScript.fail` prints for a message `msg`
(release.py line 361), before the FAILED banner and `sys.exit(1)`. -/
def failMessage (msg : String) : String :=
  "FAILED: " ++ msg

/-- `ReleaseScript.run_command` (release.py lines 383-401), with the
return code of the underlying `subprocess.run` passed in as `ret`.
The subprocess itself always runs with `check=False`; afterwards, if
`check` is set and the return code is non-zero, the script fails via
`self.fail(f"Command failed: {' '.join(cmd)}")` with exit code 1,
otherwise the completed process is returned. -/
def run_command (cmd : List String) (check : Bool) (ret : Int) : CmdResult :=
  if check && ret != 0 then
    .exited 1 (failMessage ("Command failed: " ++ String.intercalate " " cmd))
  else
    .completed ⟨ret⟩

/-! ## build-and-test.py (lines 32-141) -/

/-- The argument strings `build-and-test.py` recognizes. -/
def recognizedArgs : List String :=
  ["--help", "-h", "--build-only", "-b", "--test-only", "-t",
   "--full", "-f", "--verbose", "-v"]

/-- Result of the argument-parsing loop of `main`: an early `return`
(0 for `--help`, 1 for an unknown option) or the collected flags. -/
inductive ParseResult where
  | earlyExit (code : Int)
  | flags (build_only test_only full verbose : Bool)
deriving DecidableEq, Repr

/-- The `for arg in args` loop of `main` (build-and-test.py
lines 94-111), starting from the given flag values.  `--help` returns 0
immediately; an unrecognized argument returns 1 immediately. -/
def parseArgs : List String → Bool → Bool → Bool → Bool → ParseResult
  | [], b, t, f, v => .flags b t f v
  | a :: rest, b, t, f, v =>
    if a ∈ ["--help", "-h"] then .earlyExit 0
    else if a ∈ ["--build-only", "-b"] then parseArgs rest true t false v
    else if a ∈ ["--test-only", "-t"] then parseArgs rest b true false v
    else if a ∈ ["--full", "-f"] then parseArgs rest b t true v
    else if a ∈ ["--verbose", "-v"] then parseArgs rest b t f true
    else .earlyExit 1

/-- The status messages `main` prints (the test-failure message is
printed with or without parsed failure counts; both variants are
`testsFailed` here). -/
inductive BTMsg where
  | buildFailed
  | buildSucceeded
  | testsFailed
  | testsPassed
deriving DecidableEq, Repr

/-- Result of a `build-and-test.py` invocation: the value `main`
returns (which `sys.exit(main())` makes the process exit code), whether
the build command and the test command were run, and the status
messages printed. -/
structure BTResult where
  exitCode : Int
  ranBuild : Bool
  ranTest : Bool
  msgs : List BTMsg
deriving DecidableEq, Repr

/-- The command phase of `main` (build-and-test.py lines 113-138),
after argument parsing: `buildCode` and `testCode` are the return codes
of `mvn clean install -q -DskipTests` and `mvn test -q -Drat.skip=true`
(each used only if that command is run).  A non-zero build code is
returned at once, without running tests; a non-zero test code is
returned at once; otherwise the last command's code (or the initial 0)
is returned. -/
def btPhases (build_only test_only full : Bool) (buildCode testCode : Int) : BTResult :=
  if build_only || full then
    if buildCode != 0 then ⟨buildCode, true, false, [.buildFailed]⟩
    else
      if test_only || full then
        if testCode != 0 then ⟨testCode, true, true, [.buildSucceeded, .testsFailed]⟩
        else ⟨testCode, true, true, [.buildSucceeded, .testsPassed]⟩
      else ⟨0, true, false, [.buildSucceeded]⟩
  else
    if test_only || full then
      if testCode != 0 then ⟨testCode, false, true, [.testsFailed]⟩
      else ⟨testCode, false, true, [.testsPassed]⟩
    else ⟨0, false, false, []⟩

/-- `main` of build-and-test.py (lines 85-141): parse the arguments
starting from `build_only = test_only = verbose = False`, `full = True`,
then run the command phase.  The doc text printed by `--help` and the
"Unknown option" message are not modelled as `BTMsg`s. -/
def btMain (args : List String) (buildCode testCode : Int) : BTResult :=
  match parseArgs args false false true false with
  | .earlyExit c => ⟨c, false, false, []⟩
  | .flags b t f _ => btPhases b t f buildCode testCode

/-! ## cleanup-whitespace.py (lines 32-94)

File contents are modelled as `List Char`.  `isPySpace` is the set of
characters Python's `str.strip` / `str.isspace` treat as whitespace;
`isLineBoundary` is the set of line boundaries of `str.splitlines`. -/

/-- The characters Python `str.strip()` removes (Unicode whitespace). -/
def pySpaceChars : List Char :=
  [' ', '\t', '\n', '\x0b', '\x0c', '\r', '\x1c', '\x1d', '\x1e', '\x1f',
   '\x85', '\xa0', '\u1680', '\u2000', '\u2001', '\u2002', '\u2003',
   '\u2004', '\u2005', '\u2006', '\u2007', '\u2008', '\u2009', '\u200A',
   '\u2028', '\u2029', '\u202F', '\u205F', '\u3000']

def isPySpace (c : Char) : Bool := c ∈ pySpaceChars

/-- The line boundaries of Python `str.splitlines` (besides `"\r\n"`,
which is handled as a single boundary). -/
def lineBoundaryChars : List Char :=
  ['\n', '\r', '\x0b', '\x0c', '\x1c', '\x1d', '\x1e', '\x85', '\u2028', '\u2029']

def isLineBoundary (c : Char) : Bool := c ∈ lineBoundaryChars

/-- Worker for `str.splitlines(keepends=True)`: `acc` holds the current
line's characters in reverse.  A `"\r\n"` pair ends a line as a single
boundary; any other boundary character ends a line by itself; a final
line without a terminator is emitted unless empty. -/
def splitAux : List Char → List Char → List (List Char)
  | [], acc => if acc.isEmpty then [] else [acc.reverse]
  | '\r' :: '\n' :: rest, acc => (acc.reverse ++ ['\r', '\n']) :: splitAux rest []
  | c :: rest, acc =>
    if isLineBoundary c then (acc.reverse ++ [c]) :: splitAux rest []
    else splitAux rest (c :: acc)

/-- Python `content.splitlines(keepends=True)`. -/
def splitLinesKeepEnds (content : List Char) : List (List Char) :=
  splitAux content []

/-- Remove the longest suffix of elements satisfying `p` (used both for
`str.rstrip` variants and for the pop-from-the-end loops on line
lists). -/
def dropTrailing {α : Type} (p : α → Bool) (xs : List α) : List α :=
  (xs.reverse.dropWhile p).reverse

/-- Python `line.rstrip()`. -/
def rstripAll (l : List Char) : List Char := dropTrailing isPySpace l

/-- Python `line.strip()`. -/
def stripAll (l : List Char) : List Char := (rstripAll l).dropWhile isPySpace

/-- Python `line.strip() == ''`. -/
def isBlankLine (l : List Char) : Bool := l.all isPySpace

/-- Step 1 of `clean_java_file` (line 45), applied to each line:
`line.rstrip() + ('\n' if line.endswith('\n') else '')`. -/
def step1Line (l : List Char) : List Char :=
  rstripAll l ++ (if l.getLast? = some '\n' then ['\n'] else [])

/-- Step 2 of `clean_java_file` (lines 47-56): drop every blank line
whose predecessor was also blank. -/
def collapseBlanks : Bool → List (List Char) → List (List Char)
  | _, [] => []
  | prev_blank, l :: rest =>
    if isBlankLine l then
      if prev_blank then collapseBlanks true rest
      else l :: collapseBlanks true rest
    else l :: collapseBlanks false rest

/-- Second half of step 3 of `clean_java_file` (lines 63-73): when the
last line strips to exactly `"}"`, pop the blank lines immediately
before it. -/
def removeBlanksBeforeFinalBrace (ls : List (List Char)) : List (List Char) :=
  match ls.getLast? with
  | none => ls
  | some lastLine =>
    if stripAll lastLine = ['}'] then
      dropTrailing isBlankLine ls.dropLast ++ [lastLine]
    else ls

/-- Python `new_content.rstrip('\n')` (line 78). -/
def rstripNl (l : List Char) : List Char := dropTrailing (· = '\n') l

/-- Steps 1-3 of `clean_java_file` (lines 42-73): split into lines with
ends kept, strip trailing whitespace per line, collapse consecutive
blank lines, pop trailing blank lines, pop blank lines before a final
closing brace. -/
def cleanLines (content : List Char) : List (List Char) :=
  removeBlanksBeforeFinalBrace
    (dropTrailing isBlankLine
      (collapseBlanks false ((splitLinesKeepEnds content).map step1Line)))

/-- Step 4 of `clean_java_file` (lines 75-82): join the lines, strip
trailing newlines, and append one `'\n'` when the result is nonempty
and does not end in `'}'`. -/
def finalize (lines : List (List Char)) : List Char :=
  let nc := rstripNl lines.flatten
  if nc ≠ [] ∧ nc.getLast? ≠ some '}' then nc ++ ['\n'] else nc

/-- The whole whitespace-cleaning transformation of `clean_java_file`
(lines 42-82): original content in, cleaned content out. -/
def cleanContent (content : List Char) : List Char :=
  finalize (cleanLines content)

/-- `clean_java_file` (lines 32-94): returns whether the file was
modified, paired with the file's content after the call.  `ioError`
models an exception raised while reading or processing the file (the
`except` branch returns `False` without touching the file); the write
itself is assumed to succeed. -/
def clean_java_file (ioError : Bool) (content : List Char) : Bool × List Char :=
  if ioError then (false, content)
  else
    let nc := cleanContent content
    if nc ≠ content then (true, nc) else (false, content)

/-! ## Helper lemmas: dict and state -/

theorem dictGet_dictSet (d : List (String × String)) (k v k' : String) :
    dictGet (dictSet d k v) k' = if k = k' then some v else dictGet d k' := by
  induction d with
  | nil => simp [dictSet, dictGet]
  | cons p rest ih =>
    obtain ⟨pk, pv⟩ := p
    by_cases h : pk = k
    · subst h
      by_cases h' : pk = k'
      · simp [dictSet, dictGet, h']
      · simp [dictSet, dictGet, h']
    · by_cases h' : pk = k'
      · have hkk' : ¬k = k' := fun e => h (h'.trans e.symm)
        have hk'k : ¬k' = k := fun e => hkk' e.symm
        simp [dictSet, dictGet, h, h', hkk', hk'k]
      · simp [dictSet, dictGet, h, h', ih]

theorem ReleaseState.get_set (s : ReleaseState) (k v k' : String) :
    (s.set k v).get k' = if k = k' then some v else s.get k' := by
  simp [ReleaseState.set, ReleaseState.save, ReleaseState.get, dictGet_dictSet]

theorem ReleaseState.get_last_step_set_last_step (s : ReleaseState) (x : String) :
    (s.set_last_step x).get_last_step = some x := by
  simp [ReleaseState.set_last_step, ReleaseState.get_last_step, ReleaseState.get_set]

/-! ## Helper lemmas: pyIndex and the step list -/

theorem pyIndex_eq_none_of_not_mem {l : List String} {x : String} (h : x ∉ l) :
    pyIndex l x = none := by
  induction l with
  | nil => rfl
  | cons s rest ih =>
    simp only [List.mem_cons, not_or] at h
    simp [pyIndex, Ne.symm h.1, ih h.2]

theorem pyIndex_getElem {l : List String} (hn : l.Nodup) (i : Nat) (hi : i < l.length) :
    pyIndex l l[i] = some i := by
  induction l generalizing i with
  | nil => simp at hi
  | cons s rest ih =>
    cases i with
    | zero => simp [pyIndex]
    | succ j =>
      have hj : j < rest.length := by simpa using hi
      have hmem : rest[j] ∈ rest := List.getElem_mem hj
      have hne : s ≠ rest[j] := by
        intro h
        exact (List.nodup_cons.mp hn).1 (h ▸ hmem)
      simp [pyIndex, hne, ih (List.nodup_cons.mp hn).2 j hj]

theorem stepsList_nodup : stepsList.Nodup := by decide

theorem empty_not_mem_stepsList : "" ∉ stepsList := by decide

theorem stepsList_length : stepsList.length = 13 := by decide

/-! ## Behaviour of the run loop -/

theorem runLoop_exitCode_zero_or_one (cfg : RunConfig) (ss : Option String)
    (extra : String → ReleaseState → ReleaseState) (intr : String → Bool) :
    ∀ (rest : List String) (st : ReleaseState) (acc : List String)
      (tr : List (String × ReleaseState)),
      (runLoop cfg ss extra intr rest st acc tr).exitCode = 0 ∨
      (runLoop cfg ss extra intr rest st acc tr).exitCode = 1 := by
  intro rest
  induction rest with
  | nil => intro st acc tr; left; rfl
  | cons s rest ih =>
    intro st acc tr
    simp only [runLoop]
    cases should_run_step stepsList cfg.skip_steps cfg.resume st.get_last_step ss s with
    | failUnknownStart => right; rfl
    | skipStep => exact ih st acc tr
    | runStep =>
      cases hi : intr s
      · exact ih ..
      · exact Or.inr rfl

theorem runLoop_trace_last_step (cfg : RunConfig) (ss : Option String)
    (extra : String → ReleaseState → ReleaseState) (intr : String → Bool) :
    ∀ (rest : List String) (st : ReleaseState) (acc : List String)
      (tr : List (String × ReleaseState)),
      (∀ p ∈ tr, p.2.get_last_step = some p.1) →
      ∀ p ∈ (runLoop cfg ss extra intr rest st acc tr).trace,
        p.2.get_last_step = some p.1 := by
  intro rest
  induction rest with
  | nil =>
    intro st acc tr htr p hp
    simp only [runLoop] at hp
    exact htr p (List.mem_reverse.mp hp)
  | cons s rest ih =>
    intro st acc tr htr p hp
    simp only [runLoop] at hp
    cases hd : should_run_step stepsList cfg.skip_steps cfg.resume st.get_last_step ss s with
    | failUnknownStart =>
      rw [hd] at hp
      exact htr p (List.mem_reverse.mp hp)
    | skipStep =>
      rw [hd] at hp
      exact ih st acc tr htr p hp
    | runStep =>
      rw [hd] at hp
      cases hi : intr s
      · rw [show intr s = false from hi] at hp
        refine ih _ _ _ ?_ p hp
        intro q hq
        rcases List.mem_cons.mp hq with h | h
        · subst h
          exact ReleaseState.get_last_step_set_last_step ..
        · exact htr q h
      · rw [show intr s = true from hi] at hp
        exact htr p (List.mem_reverse.mp hp)

/-! ## Claim C3: run_command error handling -/

/-- C3: for every command executed through run_command with checking
enabled, a non-zero subprocess return code makes the script print a
failure message naming the command (the joined argv) and exit with
code 1, while a zero return code makes run_command return the completed
process so execution continues. -/
theorem c3_run_command_checks_return_code (cmd : List String) (ret : Int) :
    (ret ≠ 0 →
      run_command cmd true ret =
        .exited 1 ("FAILED: " ++ ("Command failed: " ++ String.intercalate " " cmd))) ∧
    (ret = 0 → run_command cmd true ret = .completed ⟨0⟩) := by
  constructor
  · intro h
    simp [run_command, failMessage, h]
  · intro h
    subst h
    simp [run_command]

/-- Witness for C3 at a concrete command and the return codes 1 and 0. -/
theorem c3_run_command_witness :
    run_command ["mvn", "clean", "verify"] true 1 =
      .exited 1 ("FAILED: " ++ ("Command failed: " ++
        String.intercalate " " ["mvn", "clean", "verify"])) ∧
    run_command ["mvn", "clean", "verify"] true 0 = .completed ⟨0⟩ :=
  ⟨(c3_run_command_checks_return_code ["mvn", "clean", "verify"] 1).1 (by decide),
   (c3_run_command_checks_return_code ["mvn", "clean", "verify"] 0).2 rfl⟩

/-! ## Claim C4: exit codes -/

/-- C4 counterexample: when the Maven test command exits with code 2,
`build-and-test.py` (invoked with no arguments) exits with code 2,
which is neither 0 nor 1. -/
theorem c4_counterexample_exit_code_two :
    (btMain [] 0 2).exitCode = 2 ∧
    ¬((btMain [] 0 2).exitCode = 0 ∨ (btMain [] 0 2).exitCode = 1) := by
  decide

theorem parseArgs_early_zero_or_one (args : List String) :
    ∀ b t f v c, parseArgs args b t f v = .earlyExit c → c = 0 ∨ c = 1 := by
  induction args with
  | nil => intro b t f v c h; simp [parseArgs] at h
  | cons a rest ih =>
    intro b t f v c h
    simp only [parseArgs] at h
    split at h
    · exact Or.inl (ParseResult.earlyExit.inj h).symm
    · split at h
      · exact ih _ _ _ _ _ h
      · split at h
        · exact ih _ _ _ _ _ h
        · split at h
          · exact ih _ _ _ _ _ h
          · split at h
            · exact ih _ _ _ _ _ h
            · exact Or.inr (ParseResult.earlyExit.inj h).symm

theorem btPhases_exitCode (b t f : Bool) (bc tc : Int) :
    (btPhases b t f bc tc).exitCode = 0 ∨ (btPhases b t f bc tc).exitCode = bc ∨
    (btPhases b t f bc tc).exitCode = tc := by
  unfold btPhases
  split
  · split
    · right; left; rfl
    · split
      · split
        · right; right; rfl
        · right; right; rfl
      · left; rfl
  · split
    · split
      · right; right; rfl
      · right; right; rfl
    · left; rfl

/-- C4 amended: the repository-wide 0/1 exit-code guarantee fails —
build-and-test.py propagates a failing Maven command's exit code
unchanged, so for every invocation its exit code is 0, 1, the build
command's code, or the test command's code, and hence escapes {0, 1}
whenever a Maven command fails with another code. -/
theorem c4_amended_exit_codes (args : List String) (bc tc : Int) :
    (btMain args bc tc).exitCode = 0 ∨ (btMain args bc tc).exitCode = 1 ∨
    (btMain args bc tc).exitCode = bc ∨ (btMain args bc tc).exitCode = tc := by
  unfold btMain
  cases hp : parseArgs args false false true false with
  | earlyExit c =>
    rcases parseArgs_early_zero_or_one args _ _ _ _ _ hp with h | h
    · subst h; left; rfl
    · subst h; right; left; rfl
  | flags b t f v =>
    rcases btPhases_exitCode b t f bc tc with h | h | h
    · left; exact h
    · right; right; left; exact h
    · right; right; right; exact h

/-! ## Claim C8: build-and-test.py reporting -/

/-- C8 counterexample: invoked with the unknown option `--bogus`,
`build-and-test.py` runs no command at all yet returns 1, so "the
result is 0 exactly when every command it ran returned 0" fails (the
right-hand side is vacuously true, the left-hand side is false). -/
theorem c8_counterexample_unknown_option :
    (btMain ["--bogus"] 0 0).exitCode = 1 ∧
    (btMain ["--bogus"] 0 0).ranBuild = false ∧
    (btMain ["--bogus"] 0 0).ranTest = false ∧
    ¬((btMain ["--bogus"] 0 0).exitCode = 0 ↔
      (((btMain ["--bogus"] 0 0).ranBuild = true → (0 : Int) = 0) ∧
       ((btMain ["--bogus"] 0 0).ranTest = true → (0 : Int) = 0))) := by
  decide

theorem parseArgs_recognized_not_early_one (args : List String)
    (h : ∀ a ∈ args, a ∈ recognizedArgs) :
    ∀ b t f v, parseArgs args b t f v ≠ .earlyExit 1 := by
  induction args with
  | nil => intro b t f v hc; simp [parseArgs] at hc
  | cons a rest ih =>
    intro b t f v hc
    have ha : a ∈ recognizedArgs := h a (List.mem_cons_self ..)
    have hrest : ∀ x ∈ rest, x ∈ recognizedArgs := fun x hx => h x (List.mem_cons_of_mem _ hx)
    simp only [parseArgs] at hc
    split at hc
    · exact absurd (ParseResult.earlyExit.inj hc) (by decide)
    · split at hc
      · exact ih hrest _ _ _ _ hc
      · split at hc
        · exact ih hrest _ _ _ _ hc
        · split at hc
          · exact ih hrest _ _ _ _ hc
          · split at hc
            · exact ih hrest _ _ _ _ hc
            · rename_i h1 h2 h3 h4 h5
              simp [recognizedArgs] at ha
              rcases ha with h | h | h | h | h | h | h | h | h | h <;> subst h <;> simp_all

theorem btPhases_report (b t f : Bool) (bc tc : Int) :
    ((btPhases b t f bc tc).ranBuild = true → bc ≠ 0 →
      (btPhases b t f bc tc).exitCode = bc ∧
      BTMsg.buildFailed ∈ (btPhases b t f bc tc).msgs ∧
      (btPhases b t f bc tc).ranTest = false) ∧
    ((btPhases b t f bc tc).ranBuild = true → bc = 0 →
      BTMsg.buildSucceeded ∈ (btPhases b t f bc tc).msgs) ∧
    ((btPhases b t f bc tc).ranTest = true → tc ≠ 0 →
      (btPhases b t f bc tc).exitCode = tc ∧
      BTMsg.testsFailed ∈ (btPhases b t f bc tc).msgs) ∧
    ((btPhases b t f bc tc).exitCode = 0 ↔
      (((btPhases b t f bc tc).ranBuild = true → bc = 0) ∧
       ((btPhases b t f bc tc).ranTest = true → tc = 0))) := by
  by_cases hbf : (b || f) = true
  · by_cases hbc : bc = 0
    · by_cases htf : (t || f) = true
      · by_cases htc : tc = 0
        · refine ⟨?_, ?_, ?_, ?_⟩ <;> simp [btPhases, hbf, hbc, htf, htc]
        · refine ⟨?_, ?_, ?_, ?_⟩ <;> simp [btPhases, hbf, hbc, htf, htc]
      · refine ⟨?_, ?_, ?_, ?_⟩ <;> simp [btPhases, hbf, hbc, htf]
    · refine ⟨?_, ?_, ?_, ?_⟩ <;> simp [btPhases, hbf, hbc]
  · by_cases htf : (t || f) = true
    · by_cases htc : tc = 0
      · refine ⟨?_, ?_, ?_, ?_⟩ <;> simp [btPhases, hbf, htf, htc]
      · refine ⟨?_, ?_, ?_, ?_⟩ <;> simp [btPhases, hbf, htf, htc]
    · refine ⟨?_, ?_, ?_, ?_⟩ <;> simp [btPhases, hbf, htf]

/-- C8 amended: build-and-test.py reports success or failure according
to the tools' exit codes — a failing build is reported and its code
returned without running tests, a successful build is reported, failing
tests are reported with the test command's code — and, provided every
command-line argument is recognized, the result is 0 exactly when every
Maven command it ran returned 0 (an unknown option yields 1 with no
command run). -/
theorem c8_amended_reporting (args : List String) (bc tc : Int) :
    ((btMain args bc tc).ranBuild = true → bc ≠ 0 →
      (btMain args bc tc).exitCode = bc ∧
      BTMsg.buildFailed ∈ (btMain args bc tc).msgs ∧
      (btMain args bc tc).ranTest = false) ∧
    ((btMain args bc tc).ranBuild = true → bc = 0 →
      BTMsg.buildSucceeded ∈ (btMain args bc tc).msgs) ∧
    ((btMain args bc tc).ranTest = true → tc ≠ 0 →
      (btMain args bc tc).exitCode = tc ∧
      BTMsg.testsFailed ∈ (btMain args bc tc).msgs) ∧
    ((∀ a ∈ args, a ∈ recognizedArgs) →
      ((btMain args bc tc).exitCode = 0 ↔
        (((btMain args bc tc).ranBuild = true → bc = 0) ∧
         ((btMain args bc tc).ranTest = true → tc = 0)))) := by
  unfold btMain
  cases hp : parseArgs args false false true false with
  | earlyExit c =>
    refine ⟨by intro h; simp at h, by intro h; simp at h, by intro h; simp at h, ?_⟩
    intro hrec
    have hc1 : c ≠ 1 := by
      intro h
      subst h
      exact parseArgs_recognized_not_early_one args hrec _ _ _ _ hp
    rcases parseArgs_early_zero_or_one args _ _ _ _ _ hp with h | h
    · subst h; simp
    · exact absurd h hc1
  | flags b t f v =>
    obtain ⟨h1, h2, h3, h4⟩ := btPhases_report b t f bc tc
    exact ⟨h1, h2, h3, fun _ => h4⟩

/-- Witness for C8 at `--full` with a failing test command: the build
succeeds, tests fail with code 5, and the script's result is 5. -/
theorem c8_amended_witness :
    ((btMain ["--full"] 0 5).ranBuild = true → (0 : Int) ≠ 0 →
      (btMain ["--full"] 0 5).exitCode = 0 ∧
      BTMsg.buildFailed ∈ (btMain ["--full"] 0 5).msgs ∧
      (btMain ["--full"] 0 5).ranTest = false) ∧
    ((btMain ["--full"] 0 5).ranBuild = true → (0 : Int) = 0 →
      BTMsg.buildSucceeded ∈ (btMain ["--full"] 0 5).msgs) ∧
    ((btMain ["--full"] 0 5).ranTest = true → (5 : Int) ≠ 0 →
      (btMain ["--full"] 0 5).exitCode = 5 ∧
      BTMsg.testsFailed ∈ (btMain ["--full"] 0 5).msgs) ∧
    ((∀ a ∈ ["--full"], a ∈ recognizedArgs) →
      ((btMain ["--full"] 0 5).exitCode = 0 ↔
        (((btMain ["--full"] 0 5).ranBuild = true → (0 : Int) = 0) ∧
         ((btMain ["--full"] 0 5).ranTest = true → (5 : Int) = 0)))) :=
  c8_amended_reporting ["--full"] 0 5

/-! ## Claim C6: checkpoint state is last-write-wins -/

/-- A sequence of `ReleaseState.set` calls, applied in order. -/
def applySets (st : ReleaseState) (ops : List (String × String)) : ReleaseState :=
  ops.foldl (fun s p => s.set p.1 p.2) st

/-- The value of the most recent write to `k` in `ops` (later writes
win). -/
def lastWrite : List (String × String) → String → Option String
  | [], _ => none
  | (k', v') :: rest, k =>
    match lastWrite rest k with
    | some v => some v
    | none => if k' = k then some v' else none

theorem applySets_get (ops : List (String × String)) :
    ∀ (st : ReleaseState) (k : String),
      (applySets st ops).get k =
        match lastWrite ops k with
        | some v => some v
        | none => st.get k := by
  induction ops with
  | nil => intro st k; rfl
  | cons p rest ih =>
    intro st k
    obtain ⟨pk, pv⟩ := p
    show (applySets (st.set pk pv) rest).get k = _
    rw [ih]
    cases hw : lastWrite rest k with
    | some v => simp [lastWrite, hw]
    | none =>
      by_cases hk : pk = k
      · simp [lastWrite, hw, hk, ReleaseState.get_set]
      · simp [lastWrite, hw, hk, ReleaseState.get_set]

/-- C6: the checkpoint state is a flat key/value record with
last-write-wins semantics — after any sequence of `set` calls, `get k`
returns the most recently set value for `k` (falling back to the prior
state), every `set` immediately persists the whole map to the state
file, and during a run each completed step stores its own name under
`'last_step'` (so the trace entry of every completed step has
`get_last_step` equal to that step's name, each write overwriting the
previous one). -/
theorem c6_state_last_write_wins :
    (∀ (st : ReleaseState) (ops : List (String × String)) (k : String),
      (applySets st ops).get k =
        match lastWrite ops k with
        | some v => some v
        | none => st.get k) ∧
    (∀ (st : ReleaseState) (k v : String),
      (st.set k v).file = some (st.set k v).data) ∧
    (∀ (cfg : RunConfig) (st0 : ReleaseState)
      (extra : String → ReleaseState → ReleaseState) (intr : String → Bool)
      (p : String × ReleaseState),
      p ∈ (releaseRun cfg st0 extra intr).trace →
      p.2.get_last_step = some p.1) := by
  refine ⟨fun st ops k => applySets_get ops st k, ?_, ?_⟩
  · intro st k v
    rfl
  · intro cfg st0 extra intr p hp
    exact runLoop_trace_last_step _ _ _ _ _ _ _ _ (by intro q hq; simp at hq) p hp

/-- Witness for C6: a run interrupted after its first step has a trace
whose single entry records `check_prerequisites` under `last_step`. -/
theorem c6_state_witness :
    ("check_prerequisites",
      ReleaseState.set ⟨[], none⟩ "last_step" "check_prerequisites") ∈
      (releaseRun ⟨false, none, []⟩ ⟨[], none⟩ (fun _ s => s)
        (fun s => s == "check_java_version")).trace ∧
    (ReleaseState.set ⟨[], none⟩ "last_step" "check_prerequisites").get_last_step =
      some "check_prerequisites" :=
  ⟨by decide,
   c6_state_last_write_wins.2.2 ⟨false, none, []⟩ ⟨[], none⟩ (fun _ s => s)
     (fun s => s == "check_java_version")
     ("check_prerequisites", ReleaseState.set ⟨[], none⟩ "last_step" "check_prerequisites")
     (by decide)⟩

/-! ## Step-selection lemmas for concrete modes -/

theorem stepsList_getD_mem {i : Nat} (hi : i < stepsList.length) :
    stepsList.getD i "" ∈ stepsList := by
  rw [List.getD_eq_getElem _ _ hi]
  exact List.getElem_mem hi

theorem stepsList_getD_ne_empty {i : Nat} (hi : i < stepsList.length) :
    stepsList.getD i "" ≠ "" := by
  intro h
  exact empty_not_mem_stepsList (h ▸ stepsList_getD_mem hi)

theorem pyIndex_stepsList_getD {i : Nat} (hi : i < stepsList.length) :
    pyIndex stepsList (stepsList.getD i "") = some i := by
  rw [List.getD_eq_getElem _ _ hi]
  exact pyIndex_getElem stepsList_nodup i hi

/-- In resume mode with a checkpointed `last_step` that is the `m`-th
step, the decision for the `k`-th step is: skip it if it is in
`skip_steps`, run it exactly when `m < k`. -/
theorem should_run_step_resume (skip : List String) (ss : Option String)
    (m k : Nat) (hm : m < stepsList.length) (hk : k < stepsList.length) :
    should_run_step stepsList skip true (some stepsList[m]) ss stepsList[k] =
      if stepsList[k] ∈ skip then .skipStep
      else if m < k then .runStep else .skipStep := by
  have hne : stepsList[m] ≠ "" := by
    intro h
    exact empty_not_mem_stepsList (h ▸ List.getElem_mem hm)
  have h1 : pyIndex stepsList stepsList[m] = some m := pyIndex_getElem stepsList_nodup m hm
  have h2 : pyIndex stepsList stepsList[k] = some k := pyIndex_getElem stepsList_nodup k hk
  by_cases hskip : stepsList[k] ∈ skip
  · simp [should_run_step, hskip]
  · by_cases hmk : m < k
    · simp [should_run_step, hskip, hne, h1, h2, hmk]
    · simp [should_run_step, hskip, hne, h1, h2, hmk]

/-- Without resume and with `--start-step` naming the `i`-th step, the
decision for the `k`-th step is: skip it if it is in `skip_steps`, run
it exactly when `i ≤ k`; the checkpoint state is ignored. -/
theorem should_run_step_start (skip : List String) (last : Option String)
    (i k : Nat) (hi : i < stepsList.length) (hk : k < stepsList.length) :
    should_run_step stepsList skip false last (some stepsList[i]) stepsList[k] =
      if stepsList[k] ∈ skip then .skipStep
      else if i ≤ k then .runStep else .skipStep := by
  have hne : stepsList[i] ≠ "" := by
    intro h
    exact empty_not_mem_stepsList (h ▸ List.getElem_mem hi)
  have h1 : pyIndex stepsList stepsList[i] = some i := pyIndex_getElem stepsList_nodup i hi
  have h2 : pyIndex stepsList stepsList[k] = some k := pyIndex_getElem stepsList_nodup k hk
  by_cases hskip : stepsList[k] ∈ skip
  · simp [should_run_step, hskip]
  · by_cases hik : i ≤ k
    · simp [should_run_step, hskip, hne, h1, h2, hik]
    · simp [should_run_step, hskip, hne, h1, h2, hik]

/-- Without resume and with a nonempty `--start-step` name that is not
in the step list, the decision for any step not in `skip_steps` is to
fail. -/
theorem should_run_step_unknown_start (skip : List String) (last : Option String)
    (nm : String) (hnm : nm ∉ stepsList) (hne : nm ≠ "") (s : String) :
    should_run_step stepsList skip false last (some nm) s =
      if s ∈ skip then .skipStep else .failUnknownStart := by
  have h1 : pyIndex stepsList nm = none := pyIndex_eq_none_of_not_mem hnm
  by_cases hskip : s ∈ skip
  · simp [should_run_step, hskip]
  · simp [should_run_step, hskip, hne, h1]

/-! ## One-step reduction lemmas for the run loop -/

theorem runLoop_cons_skip (cfg : RunConfig) (ss : Option String)
    (extra : String → ReleaseState → ReleaseState) (intr : String → Bool)
    (s : String) (rest : List String) (st : ReleaseState) (acc : List String)
    (tr : List (String × ReleaseState))
    (hd : should_run_step stepsList cfg.skip_steps cfg.resume st.get_last_step ss s =
      .skipStep) :
    runLoop cfg ss extra intr (s :: rest) st acc tr =
      runLoop cfg ss extra intr rest st acc tr := by
  simp only [runLoop, hd]

theorem runLoop_cons_fail (cfg : RunConfig) (ss : Option String)
    (extra : String → ReleaseState → ReleaseState) (intr : String → Bool)
    (s : String) (rest : List String) (st : ReleaseState) (acc : List String)
    (tr : List (String × ReleaseState))
    (hd : should_run_step stepsList cfg.skip_steps cfg.resume st.get_last_step ss s =
      .failUnknownStart) :
    runLoop cfg ss extra intr (s :: rest) st acc tr =
      ⟨acc.reverse, tr.reverse, st, .unknownStart, 1⟩ := by
  simp only [runLoop, hd]

theorem runLoop_cons_run (cfg : RunConfig) (ss : Option String)
    (extra : String → ReleaseState → ReleaseState) (intr : String → Bool)
    (s : String) (rest : List String) (st : ReleaseState) (acc : List String)
    (tr : List (String × ReleaseState))
    (hd : should_run_step stepsList cfg.skip_steps cfg.resume st.get_last_step ss s =
      .runStep)
    (hintr : intr s = false) :
    runLoop cfg ss extra intr (s :: rest) st acc tr =
      runLoop cfg ss extra intr rest ((extra s st).set_last_step s) (s :: acc)
        ((s, (extra s st).set_last_step s) :: tr) := by
  simp only [runLoop, hd, hintr]
  rfl

/-! ## Loop lemmas: --resume selection -/

theorem runLoop_resume_suffix (cfg : RunConfig) (hres : cfg.resume = true)
    (ss : Option String) (extra : String → ReleaseState → ReleaseState) :
    ∀ (n k m : Nat) (st : ReleaseState) (acc : List String)
      (tr : List (String × ReleaseState)),
      stepsList.length - k = n → m < k → m < stepsList.length →
      st.get_last_step = some (stepsList.getD m "") →
      (runLoop cfg ss extra (fun _ => false) (stepsList.drop k) st acc tr).completed =
        acc.reverse ++ (stepsList.drop k).filter (fun s => decide (s ∉ cfg.skip_steps)) ∧
      (runLoop cfg ss extra (fun _ => false) (stepsList.drop k) st acc tr).outcome =
        .success ∧
      (runLoop cfg ss extra (fun _ => false) (stepsList.drop k) st acc tr).exitCode = 0 := by
  intro n
  induction n with
  | zero =>
    intro k m st acc tr hn hmk hm hlast
    have hk : stepsList.length ≤ k := by omega
    rw [List.drop_eq_nil_of_le hk]
    simp [runLoop]
  | succ n ih =>
    intro k m st acc tr hn hmk hm hlast
    have hk : k < stepsList.length := by omega
    have hdk : stepsList.drop k = stepsList[k] :: stepsList.drop (k + 1) :=
      List.drop_eq_getElem_cons hk
    have hgm : stepsList.getD m "" = stepsList[m] := List.getD_eq_getElem _ _ hm
    have hlastE : st.get_last_step = some stepsList[m] := by rw [hlast, hgm]
    rw [hdk]
    by_cases hskip : stepsList[k] ∈ cfg.skip_steps
    · have hdec : should_run_step stepsList cfg.skip_steps cfg.resume
          st.get_last_step ss stepsList[k] = .skipStep := by
        rw [hres, hlastE, should_run_step_resume cfg.skip_steps ss m k hm hk,
          if_pos hskip]
      rw [runLoop_cons_skip cfg ss extra _ _ _ _ _ _ hdec]
      have := ih (k + 1) m st acc tr (by omega) (by omega) hm hlast
      refine ⟨?_, this.2⟩
      rw [this.1, List.filter_cons_of_neg (by simp [hskip])]
    · have hdec : should_run_step stepsList cfg.skip_steps cfg.resume
          st.get_last_step ss stepsList[k] = .runStep := by
        rw [hres, hlastE, should_run_step_resume cfg.skip_steps ss m k hm hk,
          if_neg hskip, if_pos hmk]
      rw [runLoop_cons_run cfg ss extra _ _ _ _ _ _ hdec rfl]
      have hlast' :
          ((extra stepsList[k] st).set_last_step stepsList[k]).get_last_step =
            some (stepsList.getD k "") := by
        rw [List.getD_eq_getElem _ _ hk]
        exact ReleaseState.get_last_step_set_last_step ..
      have := ih (k + 1) k ((extra stepsList[k] st).set_last_step stepsList[k])
        (stepsList[k] :: acc)
        ((stepsList[k], (extra stepsList[k] st).set_last_step stepsList[k]) :: tr)
        (by omega) (by omega) hk hlast'
      refine ⟨?_, this.2⟩
      rw [this.1, List.filter_cons_of_pos (by simp [hskip])]
      simp

theorem runLoop_resume_prefix (cfg : RunConfig) (hres : cfg.resume = true)
    (ss : Option String) (extra : String → ReleaseState → ReleaseState)
    (i : Nat) (hi : i < stepsList.length) (st0 : ReleaseState)
    (hlast : st0.get_last_step = some (stepsList.getD i "")) :
    ∀ (d k : Nat) (acc : List String) (tr : List (String × ReleaseState)),
      k + d = i + 1 →
      runLoop cfg ss extra (fun _ => false) (stepsList.drop k) st0 acc tr =
        runLoop cfg ss extra (fun _ => false) (stepsList.drop (i + 1)) st0 acc tr := by
  intro d
  induction d with
  | zero =>
    intro k acc tr hk
    have : k = i + 1 := by omega
    rw [this]
  | succ d ih =>
    intro k acc tr hk
    have hklt : k < stepsList.length := by omega
    have hdk : stepsList.drop k = stepsList[k] :: stepsList.drop (k + 1) :=
      List.drop_eq_getElem_cons hklt
    have hgi : stepsList.getD i "" = stepsList[i] := List.getD_eq_getElem _ _ hi
    have hlastE : st0.get_last_step = some stepsList[i] := by rw [hlast, hgi]
    have hdec : should_run_step stepsList cfg.skip_steps cfg.resume
        st0.get_last_step ss stepsList[k] = .skipStep := by
      rw [hres, hlastE, should_run_step_resume cfg.skip_steps ss i k hi hklt]
      by_cases hskip : stepsList[k] ∈ cfg.skip_steps
      · rw [if_pos hskip]
      · rw [if_neg hskip, if_neg (by omega : ¬i < k)]
    rw [hdk, runLoop_cons_skip cfg ss extra _ _ _ _ _ _ hdec]
    exact ih (k + 1) acc tr (by omega)

/-! ## Loop lemmas: --start-step selection -/

theorem runLoop_start_suffix (cfg : RunConfig) (hres : cfg.resume = false)
    (extra : String → ReleaseState → ReleaseState)
    (i : Nat) (hi : i < stepsList.length) :
    ∀ (n k : Nat) (st : ReleaseState) (acc : List String)
      (tr : List (String × ReleaseState)),
      stepsList.length - k = n → i ≤ k →
      (runLoop cfg (some (stepsList.getD i "")) extra (fun _ => false)
          (stepsList.drop k) st acc tr).completed =
        acc.reverse ++ (stepsList.drop k).filter (fun s => decide (s ∉ cfg.skip_steps)) ∧
      (runLoop cfg (some (stepsList.getD i "")) extra (fun _ => false)
          (stepsList.drop k) st acc tr).outcome = .success ∧
      (runLoop cfg (some (stepsList.getD i "")) extra (fun _ => false)
          (stepsList.drop k) st acc tr).exitCode = 0 := by
  have hgi : stepsList.getD i "" = stepsList[i] := List.getD_eq_getElem _ _ hi
  intro n
  induction n with
  | zero =>
    intro k st acc tr hn hik
    have hk : stepsList.length ≤ k := by omega
    rw [List.drop_eq_nil_of_le hk]
    simp [runLoop]
  | succ n ih =>
    intro k st acc tr hn hik
    have hk : k < stepsList.length := by omega
    have hdk : stepsList.drop k = stepsList[k] :: stepsList.drop (k + 1) :=
      List.drop_eq_getElem_cons hk
    rw [hdk]
    by_cases hskip : stepsList[k] ∈ cfg.skip_steps
    · have hdec : should_run_step stepsList cfg.skip_steps cfg.resume
          st.get_last_step (some (stepsList.getD i "")) stepsList[k] = .skipStep := by
        rw [hres, hgi, should_run_step_start cfg.skip_steps _ i k hi hk, if_pos hskip]
      rw [runLoop_cons_skip cfg _ extra _ _ _ _ _ _ hdec]
      have := ih (k + 1) st acc tr (by omega) (by omega)
      refine ⟨?_, this.2⟩
      rw [this.1, List.filter_cons_of_neg (by simp [hskip])]
    · have hdec : should_run_step stepsList cfg.skip_steps cfg.resume
          st.get_last_step (some (stepsList.getD i "")) stepsList[k] = .runStep := by
        rw [hres, hgi, should_run_step_start cfg.skip_steps _ i k hi hk,
          if_neg hskip, if_pos hik]
      rw [runLoop_cons_run cfg _ extra _ _ _ _ _ _ hdec rfl]
      have := ih (k + 1) ((extra stepsList[k] st).set_last_step stepsList[k])
        (stepsList[k] :: acc)
        ((stepsList[k], (extra stepsList[k] st).set_last_step stepsList[k]) :: tr)
        (by omega) (by omega)
      refine ⟨?_, this.2⟩
      rw [this.1, List.filter_cons_of_pos (by simp [hskip])]
      simp

theorem runLoop_start_prefix (cfg : RunConfig) (hres : cfg.resume = false)
    (extra : String → ReleaseState → ReleaseState)
    (i : Nat) (hi : i < stepsList.length) (st0 : ReleaseState) :
    ∀ (d k : Nat) (acc : List String) (tr : List (String × ReleaseState)),
      k + d = i →
      runLoop cfg (some (stepsList.getD i "")) extra (fun _ => false)
          (stepsList.drop k) st0 acc tr =
        runLoop cfg (some (stepsList.getD i "")) extra (fun _ => false)
          (stepsList.drop i) st0 acc tr := by
  have hgi : stepsList.getD i "" = stepsList[i] := List.getD_eq_getElem _ _ hi
  intro d
  induction d with
  | zero =>
    intro k acc tr hk
    have : k = i := by omega
    rw [this]
  | succ d ih =>
    intro k acc tr hk
    have hklt : k < stepsList.length := by omega
    have hdk : stepsList.drop k = stepsList[k] :: stepsList.drop (k + 1) :=
      List.drop_eq_getElem_cons hklt
    have hdec : should_run_step stepsList cfg.skip_steps cfg.resume
        st0.get_last_step (some (stepsList.getD i "")) stepsList[k] = .skipStep := by
      rw [hres, hgi, should_run_step_start cfg.skip_steps _ i k hi hklt]
      by_cases hskip : stepsList[k] ∈ cfg.skip_steps
      · rw [if_pos hskip]
      · rw [if_neg hskip, if_neg (by omega : ¬i ≤ k)]
    rw [hdk, runLoop_cons_skip cfg _ extra _ _ _ _ _ _ hdec]
    exact ih (k + 1) acc tr (by omega)

theorem runLoop_unknown_start (cfg : RunConfig) (hres : cfg.resume = false)
    (extra : String → ReleaseState → ReleaseState)
    (nm : String) (hnm : nm ∉ stepsList) (hne : nm ≠ "") :
    ∀ (rest : List String) (st : ReleaseState) (acc : List String)
      (tr : List (String × ReleaseState)),
      (∃ s ∈ rest, s ∉ cfg.skip_steps) →
      runLoop cfg (some nm) extra (fun _ => false) rest st acc tr =
        ⟨acc.reverse, tr.reverse, st, .unknownStart, 1⟩ := by
  intro rest
  induction rest with
  | nil =>
    intro st acc tr hex
    simp at hex
  | cons s rest ih =>
    intro st acc tr hex
    by_cases hskip : s ∈ cfg.skip_steps
    · have hdec : should_run_step stepsList cfg.skip_steps cfg.resume
          st.get_last_step (some nm) s = .skipStep := by
        rw [hres, should_run_step_unknown_start cfg.skip_steps _ nm hnm hne s,
          if_pos hskip]
      rw [runLoop_cons_skip cfg _ extra _ _ _ _ _ _ hdec]
      refine ih st acc tr ?_
      rcases hex with ⟨x, hx, hxs⟩
      rcases List.mem_cons.mp hx with h | h
      · exact absurd (h ▸ hskip) hxs
      · exact ⟨x, h, hxs⟩
    · have hdec : should_run_step stepsList cfg.skip_steps cfg.resume
          st.get_last_step (some nm) s = .failUnknownStart := by
        rw [hres, should_run_step_unknown_start cfg.skip_steps _ nm hnm hne s,
          if_neg hskip]
      rw [runLoop_cons_fail cfg _ extra _ _ _ _ _ _ hdec]

/-! ## Whitespace cleaning: generic dropTrailing lemmas -/

theorem dropTrailing_getLast? {α : Type} (p : α → Bool) (xs : List α) :
    ∀ x, (dropTrailing p xs).getLast? = some x → p x = false := by
  intro x hx
  unfold dropTrailing at hx
  rw [List.getLast?_reverse] at hx
  have := List.head?_dropWhile_not p xs.reverse
  rw [hx] at this
  exact this

theorem dropTrailing_eq_self {α : Type} (p : α → Bool) (xs : List α)
    (h : ∀ x, xs.getLast? = some x → p x = false) : dropTrailing p xs = xs := by
  unfold dropTrailing
  cases hr : xs.reverse with
  | nil =>
    have : xs = [] := by simpa using congrArg List.reverse hr
    simp [this]
  | cons y ys =>
    have hy : xs.getLast? = some y := by
      rw [← List.head?_reverse, hr]
      rfl
    rw [List.dropWhile_cons_of_neg (by simp [h y hy]), ← hr, List.reverse_reverse]

theorem dropTrailing_append_blank {α : Type} (p : α → Bool) (xs ts : List α)
    (h : ∀ x ∈ ts, p x = true) :
    dropTrailing p (xs ++ ts) = dropTrailing p xs := by
  unfold dropTrailing
  rw [List.reverse_append, List.dropWhile_append_of_pos (by simp_all)]

theorem dropTrailing_decomp {α : Type} (p : α → Bool) (xs : List α) :
    ∃ ts, xs = dropTrailing p xs ++ ts ∧ ∀ x ∈ ts, p x = true := by
  refine ⟨(xs.reverse.takeWhile p).reverse, ?_, ?_⟩
  · unfold dropTrailing
    rw [← List.reverse_append, List.takeWhile_append_dropWhile, List.reverse_reverse]
  · intro x hx
    rw [List.mem_reverse] at hx
    exact List.mem_takeWhile_imp hx

theorem dropTrailing_concat_neg {α : Type} (p : α → Bool) (xs : List α) (x : α)
    (h : p x = false) : dropTrailing p (xs ++ [x]) = xs ++ [x] :=
  dropTrailing_eq_self p _ (by
    intro y hy
    rw [List.getLast?_concat] at hy
    cases hy
    exact h)

/-! ## Whitespace cleaning: blank lines, bodies, clean lines -/

theorem isBlankLine_append (a b : List Char) :
    isBlankLine (a ++ b) = (isBlankLine a && isBlankLine b) := by
  simp [isBlankLine]

/-- A "body": the residue of a line after stripping trailing
whitespace — free of line boundaries and not ending in whitespace. -/
def IsBody (b : List Char) : Prop :=
  (∀ c ∈ b, isLineBoundary c = false) ∧
  (∀ c, b.getLast? = some c → isPySpace c = false)

/-- A line as produced by step 1 of the cleaner: a body, optionally
terminated by a single `'\n'`. -/
def CleanLine (l : List Char) : Prop :=
  ∃ b, IsBody b ∧ (l = b ∨ l = b ++ ['\n'])

theorem boundary_isPySpace {c : Char} (h : isLineBoundary c = true) :
    isPySpace c = true := by
  have h' : c ∈ lineBoundaryChars := by simpa [isLineBoundary] using h
  fin_cases h' <;> decide

theorem IsBody.blank_eq_nil {b : List Char} (hb : IsBody b)
    (h : isBlankLine b = true) : b = [] := by
  cases hl : b.getLast? with
  | none => simpa using hl
  | some c =>
    have hc : isPySpace c = false := hb.2 c hl
    have hmem : c ∈ b := List.mem_of_getLast?_eq_some hl
    have : isPySpace c = true := by
      simp only [isBlankLine, List.all_eq_true] at h
      exact h c hmem
    rw [hc] at this
    cases this

theorem CleanLine.blank_cases {l : List Char} (hl : CleanLine l)
    (h : isBlankLine l = true) : l = [] ∨ l = ['\n'] := by
  obtain ⟨b, hb, hcase | hcase⟩ := hl
  · subst hcase
    exact Or.inl (hb.blank_eq_nil h)
  · subst hcase
    rw [isBlankLine_append, Bool.and_eq_true] at h
    rw [hb.blank_eq_nil h.1]
    exact Or.inr rfl

theorem IsBody.append {a b : List Char} (ha : IsBody a) (hb : IsBody b) :
    IsBody (a ++ b) := by
  constructor
  · intro c hc
    rcases List.mem_append.mp hc with h | h
    · exact ha.1 c h
    · exact hb.1 c h
  · intro c hc
    rw [List.getLast?_append] at hc
    cases hgb : b.getLast? with
    | none =>
      rw [hgb] at hc
      simp only [Option.or] at hc
      exact ha.2 c hc
    | some d =>
      rw [hgb] at hc
      simp only [Option.or] at hc
      cases hc
      exact hb.2 _ hgb

theorem IsBody.nonblank_of_ne_nil {b : List Char} (hb : IsBody b) (h : b ≠ []) :
    isBlankLine b = false := by
  by_contra hcon
  rw [Bool.not_eq_false] at hcon
  exact h (hb.blank_eq_nil hcon)

/-! ## Whitespace cleaning: step 1 and strip lemmas -/

theorem pySpace_newline : ∀ x ∈ ['\n'], isPySpace x = true := by
  intro x hx
  rw [List.mem_singleton] at hx
  subst hx
  decide

theorem rstripAll_eq_self {l : List Char}
    (h : ∀ c, l.getLast? = some c → isPySpace c = false) : rstripAll l = l :=
  dropTrailing_eq_self _ _ h

theorem rstripAll_append_blank (b ts : List Char)
    (h : ∀ x ∈ ts, isPySpace x = true) : rstripAll (b ++ ts) = rstripAll b :=
  dropTrailing_append_blank _ _ _ h

theorem step1Line_eq_self {l : List Char} (hl : CleanLine l) : step1Line l = l := by
  obtain ⟨b, hb, hcase | hcase⟩ := hl
  · subst hcase
    cases hbn : l.getLast? with
    | none =>
      have : l = [] := by simpa using hbn
      subst this
      rfl
    | some c =>
      have hc : isPySpace c = false := hb.2 c hbn
      have hcn : c ≠ '\n' := by
        rintro rfl
        exact absurd hc (by decide)
      unfold step1Line
      rw [if_neg (by rw [hbn]; simp [hcn]), rstripAll_eq_self hb.2,
        List.append_nil]
  · subst hcase
    unfold step1Line
    rw [if_pos (by rw [List.getLast?_concat]),
      rstripAll_append_blank b ['\n'] pySpace_newline, rstripAll_eq_self hb.2]

theorem stripAll_append_newline (b : List Char) :
    stripAll (b ++ ['\n']) = stripAll b := by
  unfold stripAll rstripAll
  rw [dropTrailing_append_blank _ b ['\n'] pySpace_newline]

theorem isBlankLine_iff_all (l : List Char) :
    isBlankLine l = true ↔ ∀ x ∈ l, isPySpace x = true := by
  simp [isBlankLine]

theorem stripAll_of_blank_parts {a b : List Char} (ha : isBlankLine a = true)
    (hb : isBlankLine b = true) : stripAll (a ++ ['}'] ++ b) = ['}'] := by
  have ha' : ∀ x ∈ a, isPySpace x = true := (isBlankLine_iff_all a).mp ha
  have hb' : ∀ x ∈ b, isPySpace x = true := (isBlankLine_iff_all b).mp hb
  unfold stripAll rstripAll
  rw [dropTrailing_append_blank _ (a ++ ['}']) b hb',
    dropTrailing_concat_neg _ a '}' (by decide),
    List.dropWhile_append_of_pos ha', List.dropWhile_cons_of_neg (by decide)]

theorem stripAll_eq_nil_iff (l : List Char) :
    stripAll l = [] ↔ isBlankLine l = true := by
  constructor
  · intro h
    obtain ⟨ts, hdec0, hts⟩ := dropTrailing_decomp isPySpace l
    have hdec : l = rstripAll l ++ ts := hdec0
    have hsplit : rstripAll l =
        (rstripAll l).takeWhile isPySpace ++ stripAll l :=
      (List.takeWhile_append_dropWhile isPySpace _).symm
    rw [h, List.append_nil] at hsplit
    rw [isBlankLine_iff_all]
    intro x hx
    rw [hdec] at hx
    rcases List.mem_append.mp hx with hx | hx
    · rw [hsplit] at hx
      exact List.mem_takeWhile_imp hx
    · exact hts x hx
  · intro h
    rw [isBlankLine_iff_all] at h
    have h1 : rstripAll l = [] := by
      show (l.reverse.dropWhile isPySpace).reverse = []
      rw [List.dropWhile_eq_nil_iff.mpr (by simp_all)]
      rfl
    unfold stripAll
    rw [h1]
    rfl

theorem stripAll_brace_decomp {l : List Char} (h : stripAll l = ['}']) :
    ∃ a b, l = a ++ ['}'] ++ b ∧ isBlankLine a = true ∧ isBlankLine b = true := by
  obtain ⟨ts, hdec0, hts⟩ := dropTrailing_decomp isPySpace l
  have hdec : l = rstripAll l ++ ts := hdec0
  have hsplit : rstripAll l =
      (rstripAll l).takeWhile isPySpace ++ stripAll l :=
    (List.takeWhile_append_dropWhile isPySpace _).symm
  rw [h] at hsplit
  refine ⟨(rstripAll l).takeWhile isPySpace, ts, ?_, ?_, ?_⟩
  · conv_lhs => rw [hdec, hsplit]
  · rw [isBlankLine_iff_all]
    intro x hx
    exact List.mem_takeWhile_imp hx
  · rw [isBlankLine_iff_all]
    exact hts

theorem stripAll_append_brace {u v : List Char} (h : stripAll (u ++ v) = ['}']) :
    (stripAll u = ['}'] ∧ isBlankLine v = true) ∨
    (isBlankLine u = true ∧ stripAll v = ['}']) := by
  obtain ⟨a, b, heq, ha, hb⟩ := stripAll_brace_decomp h
  rw [List.append_assoc] at heq
  rcases List.append_eq_append_iff.mp heq with ⟨w, hw1, hw2⟩ | ⟨w, hw1, hw2⟩
  · -- a = u ++ w, v = w ++ '}' :: b: the brace lies in v
    right
    rw [hw1, isBlankLine_append, Bool.and_eq_true] at ha
    refine ⟨ha.1, ?_⟩
    rw [hw2, ← List.append_assoc]
    exact stripAll_of_blank_parts (a := w) ha.2 hb
  · -- u = a ++ w and '}' :: b = w ++ v
    cases w with
    | nil =>
      -- u = a is all blank and v = '}' :: b
      right
      rw [List.append_nil] at hw1
      rw [← hw1] at ha
      refine ⟨ha, ?_⟩
      have hv : v = ['}'] ++ b := by simpa using hw2.symm
      rw [hv]
      exact stripAll_of_blank_parts (a := []) rfl hb
    | cons x w' =>
      -- the brace lies in u: u = a ++ '}' :: w' with w' and v blank
      left
      rw [List.cons_append] at hw2
      injection hw2 with hx hbv
      have hbv' : b = w' ++ v := by simpa using hbv
      rw [hbv', isBlankLine_append, Bool.and_eq_true] at hb
      refine ⟨?_, hb.2⟩
      rw [hw1, ← hx, show a ++ '}' :: w' = a ++ ['}'] ++ w' by simp]
      exact stripAll_of_blank_parts ha hb.1

/-! ## Whitespace cleaning: collapse and brace-step lemmas -/

/-- Adjacent lines are never both blank. -/
def notBothBlank (a b : List Char) : Prop :=
  isBlankLine a = false ∨ isBlankLine b = false

theorem collapseBlanks_head_nonblank :
    ∀ (ls : List (List Char)) (m : List Char),
      (collapseBlanks true ls).head? = some m → isBlankLine m = false := by
  intro ls
  induction ls with
  | nil => intro m h; simp [collapseBlanks] at h
  | cons l rest ih =>
    intro m h
    by_cases hb : isBlankLine l = true
    · rw [show collapseBlanks true (l :: rest) = collapseBlanks true rest by
        simp [collapseBlanks, hb]] at h
      exact ih m h
    · rw [show collapseBlanks true (l :: rest) = l :: collapseBlanks false rest by
        simp [collapseBlanks, hb]] at h
      cases h
      exact Bool.not_eq_true _ ▸ hb

theorem collapseBlanks_chain (ls : List (List Char)) :
    ∀ prev, List.Chain' notBothBlank (collapseBlanks prev ls) := by
  induction ls with
  | nil => intro prev; simp [collapseBlanks]
  | cons l rest ih =>
    intro prev
    by_cases hb : isBlankLine l = true
    · cases prev
      · rw [show collapseBlanks false (l :: rest) = l :: collapseBlanks true rest by
          simp [collapseBlanks, hb]]
        rw [List.chain'_cons']
        refine ⟨?_, ih true⟩
        intro y hy
        exact Or.inr (collapseBlanks_head_nonblank _ y hy)
      · rw [show collapseBlanks true (l :: rest) = collapseBlanks true rest by
          simp [collapseBlanks, hb]]
        exact ih true
    · rw [show collapseBlanks prev (l :: rest) = l :: collapseBlanks false rest by
        simp [collapseBlanks, hb]]
      rw [List.chain'_cons']
      refine ⟨?_, ih false⟩
      intro y _
      exact Or.inl (Bool.not_eq_true _ ▸ hb)

theorem collapseBlanks_eq_self :
    ∀ (ls : List (List Char)) (prev : Bool),
      List.Chain' notBothBlank ls →
      (prev = true → ∀ m, ls.head? = some m → isBlankLine m = false) →
      collapseBlanks prev ls = ls := by
  intro ls
  induction ls with
  | nil => intro prev _ _; rfl
  | cons l rest ih =>
    intro prev hchain hprev
    rw [List.chain'_cons'] at hchain
    by_cases hb : isBlankLine l = true
    · cases prev
      · rw [show collapseBlanks false (l :: rest) = l :: collapseBlanks true rest by
          simp [collapseBlanks, hb]]
        rw [ih true hchain.2 ?_]
        intro _ m hm
        rcases hchain.1 m hm with h | h
        · rw [hb] at h; cases h
        · exact h
      · have := hprev rfl l rfl
        rw [hb] at this
        cases this
    · rw [show collapseBlanks prev (l :: rest) = l :: collapseBlanks false rest by
        simp [collapseBlanks, hb]]
      rw [ih false hchain.2 (by intro h; cases h)]

theorem collapseBlanks_mem :
    ∀ (ls : List (List Char)) (prev : Bool) (x : List Char),
      x ∈ collapseBlanks prev ls → x ∈ ls := by
  intro ls
  induction ls with
  | nil => intro prev x h; simp [collapseBlanks] at h
  | cons l rest ih =>
    intro prev x h
    by_cases hb : isBlankLine l = true
    · cases prev
      · rw [show collapseBlanks false (l :: rest) = l :: collapseBlanks true rest by
          simp [collapseBlanks, hb]] at h
        rcases List.mem_cons.mp h with h | h
        · exact h ▸ List.mem_cons_self ..
        · exact List.mem_cons_of_mem _ (ih true x h)
      · rw [show collapseBlanks true (l :: rest) = collapseBlanks true rest by
          simp [collapseBlanks, hb]] at h
        exact List.mem_cons_of_mem _ (ih true x h)
    · rw [show collapseBlanks prev (l :: rest) = l :: collapseBlanks false rest by
        simp [collapseBlanks, hb]] at h
      rcases List.mem_cons.mp h with h | h
      · exact h ▸ List.mem_cons_self ..
      · exact List.mem_cons_of_mem _ (ih false x h)

theorem dropTrailing_mem {α : Type} (p : α → Bool) (xs : List α) (x : α)
    (h : x ∈ dropTrailing p xs) : x ∈ xs := by
  obtain ⟨ts, hdec, _⟩ := dropTrailing_decomp p xs
  rw [hdec]
  exact List.mem_append_left _ h

theorem dropTrailing_chain {α : Type} (R : α → α → Prop) (p : α → Bool)
    (xs : List α) (h : List.Chain' R xs) :
    List.Chain' R (dropTrailing p xs) := by
  obtain ⟨ts, hdec, _⟩ := dropTrailing_decomp p xs
  rw [hdec] at h
  exact h.left_of_append

/-- The property the brace step establishes: when the final line strips
to `"}"`, the line before it is not blank. -/
def BraceOk (M : List (List Char)) : Prop :=
  ∀ m, M.getLast? = some m → stripAll m = ['}'] →
    ∀ m', M.dropLast.getLast? = some m' → isBlankLine m' = false

theorem removeBlanksBeforeFinalBrace_nil :
    removeBlanksBeforeFinalBrace [] = [] := rfl

theorem removeBlanksBeforeFinalBrace_concat (init : List (List Char))
    (lastLine : List Char) :
    removeBlanksBeforeFinalBrace (init ++ [lastLine]) =
      if stripAll lastLine = ['}'] then
        dropTrailing isBlankLine init ++ [lastLine]
      else init ++ [lastLine] := by
  unfold removeBlanksBeforeFinalBrace
  rw [List.getLast?_concat, List.dropLast_concat]

theorem removeBlanksBeforeFinalBrace_mem (ls : List (List Char)) (x : List Char)
    (h : x ∈ removeBlanksBeforeFinalBrace ls) : x ∈ ls := by
  rcases List.eq_nil_or_concat ls with rfl | ⟨init, lastLine, rfl⟩
  · rw [removeBlanksBeforeFinalBrace_nil] at h
    exact h
  · simp only [List.concat_eq_append] at *
    rw [removeBlanksBeforeFinalBrace_concat] at h
    split at h
    · rcases List.mem_append.mp h with h | h
      · exact List.mem_append_left _ (dropTrailing_mem _ _ _ h)
      · exact List.mem_append_right _ h
    · exact h

theorem removeBlanksBeforeFinalBrace_getLast? (ls : List (List Char)) :
    (removeBlanksBeforeFinalBrace ls).getLast? = ls.getLast? := by
  rcases List.eq_nil_or_concat ls with rfl | ⟨init, lastLine, rfl⟩
  · rfl
  · simp only [List.concat_eq_append] at *
    rw [removeBlanksBeforeFinalBrace_concat]
    split
    · rw [List.getLast?_concat, List.getLast?_concat]
    · rfl

theorem removeBlanksBeforeFinalBrace_chain (ls : List (List Char))
    (h : List.Chain' notBothBlank ls) :
    List.Chain' notBothBlank (removeBlanksBeforeFinalBrace ls) := by
  rcases List.eq_nil_or_concat ls with rfl | ⟨init, lastLine, rfl⟩
  · exact h
  · simp only [List.concat_eq_append] at *
    rw [removeBlanksBeforeFinalBrace_concat]
    split
    · refine List.Chain'.append ?_ ?_ ?_
      · exact dropTrailing_chain _ _ _ h.left_of_append
      · simp
      · intro x hx y hy
        rw [List.head?_cons] at hy
        cases hy
        exact Or.inl (dropTrailing_getLast? _ _ x hx)
    · exact h

theorem removeBlanksBeforeFinalBrace_braceOk (ls : List (List Char)) :
    BraceOk (removeBlanksBeforeFinalBrace ls) := by
  rcases List.eq_nil_or_concat ls with rfl | ⟨init, lastLine, rfl⟩
  · intro m hm
    cases hm
  · simp only [List.concat_eq_append] at *
    rw [removeBlanksBeforeFinalBrace_concat]
    intro m hm hstrip m' hm'
    split at hm
    · rename_i hbrace
      rw [List.getLast?_concat] at hm
      cases hm
      split at hm'
      · rw [List.dropLast_concat] at hm'
        exact dropTrailing_getLast? _ _ m' hm'
      · rename_i hne
        exact absurd hstrip hne
    · rename_i hne
      rw [List.getLast?_concat] at hm
      cases hm
      exact absurd hstrip hne

theorem removeBlanksBeforeFinalBrace_last_nonblank (ls : List (List Char))
    (h : ∀ m, ls.getLast? = some m → isBlankLine m = false) :
    ∀ m, (removeBlanksBeforeFinalBrace ls).getLast? = some m →
      isBlankLine m = false := by
  intro m hm
  rw [removeBlanksBeforeFinalBrace_getLast?] at hm
  exact h m hm

/-! ## Whitespace cleaning: splitlines lemmas -/

theorem splitAux_nil (acc : List Char) :
    splitAux [] acc = if acc.isEmpty then [] else [acc.reverse] := rfl

theorem splitAux_cons_rn (rest acc : List Char) :
    splitAux ('\r' :: '\n' :: rest) acc =
      (acc.reverse ++ ['\r', '\n']) :: splitAux rest [] := rfl

theorem splitAux_cons_nonboundary (c : Char) (rest acc : List Char)
    (h : isLineBoundary c = false) :
    splitAux (c :: rest) acc = splitAux rest (c :: acc) := by
  have hcr : c ≠ '\r' := by
    rintro rfl
    simp [isLineBoundary, lineBoundaryChars] at h
  rw [splitAux.eq_def]
  split
  · rename_i heq
    simp at heq
  · rename_i l1 l2 heq
    rw [List.cons.injEq] at heq
    exact absurd heq.1 hcr
  · rename_i c' rest' heq
    rw [List.cons.injEq] at heq
    obtain ⟨hc, hr⟩ := heq
    subst hc
    subst hr
    rw [if_neg (by simp [h])]

theorem splitAux_cons_boundary_not_rn (c : Char) (rest acc : List Char)
    (h : isLineBoundary c = true)
    (hne : ∀ rest', c = '\r' → rest = '\n' :: rest' → False) :
    splitAux (c :: rest) acc = (acc.reverse ++ [c]) :: splitAux rest [] := by
  rw [splitAux.eq_def]
  split
  · rename_i heq
    simp at heq
  · rename_i l1 l2 heq
    rw [List.cons.injEq] at heq
    exact (hne l2 heq.1 heq.2).elim
  · rename_i c' rest' heq
    rw [List.cons.injEq] at heq
    obtain ⟨hc, hr⟩ := heq
    subst hc
    subst hr
    rw [if_pos h]

theorem splitAux_cons_boundary_not_r (c : Char) (rest acc : List Char)
    (h : isLineBoundary c = true) (hcr : c ≠ '\r') :
    splitAux (c :: rest) acc = (acc.reverse ++ [c]) :: splitAux rest [] :=
  splitAux_cons_boundary_not_rn c rest acc h (fun _ hc _ => hcr hc)

/-- The shape of a raw line produced by `splitlines(keepends=True)`: a
boundary-free prefix followed by an optional terminator, which is a
single boundary character or the pair `"\r\n"`. -/
def LineShape (l : List Char) : Prop :=
  ∃ b t, l = b ++ t ∧ (∀ c ∈ b, isLineBoundary c = false) ∧
    (t = [] ∨ (∃ c, isLineBoundary c = true ∧ t = [c]) ∨ t = ['\r', '\n'])

theorem splitAux_line_shape (z acc : List Char) :
    (∀ c ∈ acc, isLineBoundary c = false) → ∀ l ∈ splitAux z acc, LineShape l := by
  induction z, acc using splitAux.induct with
  | case1 acc hacc =>
    intro _ l hl
    rw [splitAux_nil, if_pos hacc] at hl
    cases hl
  | case2 acc hacc =>
    intro h l hl
    rw [splitAux_nil, if_neg hacc, List.mem_singleton] at hl
    subst hl
    exact ⟨acc.reverse, [], by simp, fun c hc => h c (List.mem_reverse.mp hc),
      Or.inl rfl⟩
  | case3 rest acc ih =>
    intro h l hl
    rw [splitAux_cons_rn] at hl
    rcases List.mem_cons.mp hl with rfl | hl
    · exact ⟨acc.reverse, ['\r', '\n'], rfl,
        fun c hc => h c (List.mem_reverse.mp hc), Or.inr (Or.inr rfl)⟩
    · exact ih (by intro c hc; cases hc) l hl
  | case4 c rest acc hne hb ih =>
    intro h l hl
    rw [splitAux_cons_boundary_not_rn c rest acc hb hne] at hl
    rcases List.mem_cons.mp hl with rfl | hl
    · exact ⟨acc.reverse, [c], rfl, fun d hd => h d (List.mem_reverse.mp hd),
        Or.inr (Or.inl ⟨c, hb, rfl⟩)⟩
    · exact ih (by intro d hd; cases hd) l hl
  | case5 c rest acc hne hb ih =>
    intro h l hl
    rw [splitAux_cons_nonboundary c rest acc (by simpa using hb)] at hl
    refine ih ?_ l hl
    intro d hd
    rcases List.mem_cons.mp hd with rfl | hd
    · simpa using hb
    · exact h d hd

theorem step1Line_clean {l : List Char} (hl : LineShape l) :
    CleanLine (step1Line l) := by
  obtain ⟨b, t, rfl, hbfree, ht⟩ := hl
  have htws : ∀ x ∈ t, isPySpace x = true := by
    rcases ht with rfl | ⟨c, hc, rfl⟩ | rfl
    · intro x hx; cases hx
    · intro x hx
      rw [List.mem_singleton] at hx
      subst hx
      exact boundary_isPySpace hc
    · intro x hx
      rcases List.mem_cons.mp hx with rfl | hx
      · decide
      · rw [List.mem_singleton] at hx
        subst hx
        decide
  have hbody : IsBody (rstripAll b) := by
    constructor
    · intro c hc
      exact hbfree c (dropTrailing_mem _ _ _ hc)
    · intro c hc
      exact dropTrailing_getLast? _ _ c hc
  refine ⟨rstripAll b, hbody, ?_⟩
  unfold step1Line
  rw [rstripAll_append_blank b t htws]
  by_cases hif : (b ++ t).getLast? = some '\n'
  · rw [if_pos hif]
    exact Or.inr rfl
  · rw [if_neg hif, List.append_nil]
    exact Or.inl rfl

/-! ## Whitespace cleaning: the cleaned line list is well-formed -/

theorem cleanLines_clean (x : List Char) : ∀ l ∈ cleanLines x, CleanLine l := by
  intro l hl
  unfold cleanLines at hl
  have h1 := removeBlanksBeforeFinalBrace_mem _ _ hl
  have h2 := dropTrailing_mem _ _ _ h1
  have h3 := collapseBlanks_mem _ _ _ h2
  rw [List.mem_map] at h3
  obtain ⟨l0, hl0, rfl⟩ := h3
  exact step1Line_clean
    (splitAux_line_shape x [] (by intro c hc; cases hc) l0 hl0)

theorem cleanLines_chain (x : List Char) :
    List.Chain' notBothBlank (cleanLines x) :=
  removeBlanksBeforeFinalBrace_chain _
    (dropTrailing_chain _ _ _ (collapseBlanks_chain _ false))

theorem cleanLines_last_nonblank (x : List Char) :
    ∀ m, (cleanLines x).getLast? = some m → isBlankLine m = false :=
  removeBlanksBeforeFinalBrace_last_nonblank _
    (fun m hm => dropTrailing_getLast? _ _ m hm)

theorem cleanLines_braceOk (x : List Char) : BraceOk (cleanLines x) :=
  removeBlanksBeforeFinalBrace_braceOk _

/-! ## Whitespace cleaning: merging lines at non-newline junctions

When the cleaned lines are joined and re-split, a line without a
`'\n'` terminator fuses with the following line.  `mergeCL` computes
the fused line list; it is a proof device relating `splitLines` of the
joined text to the cleaned line list. -/

def mergeCL : List (List Char) → List (List Char)
  | [] => []
  | l :: rest =>
    if l.getLast? = some '\n' then l :: mergeCL rest
    else
      match mergeCL rest with
      | [] => if l = [] then [] else [l]
      | m :: ms => (l ++ m) :: ms

theorem mergeCL_flatten : ∀ L : List (List Char),
    (mergeCL L).flatten = L.flatten := by
  intro L
  induction L with
  | nil => rfl
  | cons l rest ih =>
    by_cases ht : l.getLast? = some '\n'
    · simp [mergeCL, ht, ih]
    · rw [show mergeCL (l :: rest) =
        match mergeCL rest with
        | [] => if l = [] then [] else [l]
        | m :: ms => (l ++ m) :: ms from by simp [mergeCL, ht]]
      cases hm : mergeCL rest with
      | nil =>
        rw [hm] at ih
        by_cases hl : l = []
        · simp [hl, ← ih]
        · simp [hl, ← ih]
      | cons m ms =>
        rw [hm] at ih
        simp [← ih]

theorem mergeCL_ne_nil_mem : ∀ (L : List (List Char)) (x : List Char),
    x ∈ mergeCL L → x ≠ [] := by
  intro L
  induction L with
  | nil => intro x hx; cases hx
  | cons l rest ih =>
    intro x hx
    by_cases ht : l.getLast? = some '\n'
    · rw [show mergeCL (l :: rest) = l :: mergeCL rest from by simp [mergeCL, ht]] at hx
      rcases List.mem_cons.mp hx with rfl | hx
      · intro hnil
        rw [hnil] at ht
        cases ht
      · exact ih x hx
    · rw [show mergeCL (l :: rest) =
        match mergeCL rest with
        | [] => if l = [] then [] else [l]
        | m :: ms => (l ++ m) :: ms from by simp [mergeCL, ht]] at hx
      cases hm : mergeCL rest with
      | nil =>
        rw [hm] at hx
        by_cases hl : l = []
        · rw [if_pos hl] at hx
          cases hx
        · rw [if_neg hl] at hx
          rw [List.mem_singleton] at hx
          exact hx ▸ hl
      | cons m ms =>
        rw [hm] at hx
        rcases List.mem_cons.mp hx with rfl | hx
        · have hmne : m ≠ [] := ih m (hm ▸ List.mem_cons_self ..)
          simp [hmne]
        · have : x ∈ mergeCL rest := hm ▸ List.mem_cons_of_mem _ hx
          exact ih x this

theorem mergeCL_eq_nil : ∀ L : List (List Char),
    mergeCL L = [] → ∀ x ∈ L, x = [] := by
  intro L
  induction L with
  | nil => intro _ x hx; cases hx
  | cons l rest ih =>
    intro hnil x hx
    by_cases ht : l.getLast? = some '\n'
    · rw [show mergeCL (l :: rest) = l :: mergeCL rest from by simp [mergeCL, ht]] at hnil
      cases hnil
    · rw [show mergeCL (l :: rest) =
        match mergeCL rest with
        | [] => if l = [] then [] else [l]
        | m :: ms => (l ++ m) :: ms from by simp [mergeCL, ht]] at hnil
      cases hm : mergeCL rest with
      | nil =>
        rw [hm] at hnil
        by_cases hl : l = []
        · rcases List.mem_cons.mp hx with rfl | hx
          · exact hl
          · exact ih hm x hx
        · rw [if_neg hl] at hnil
          cases hnil
      | cons m ms =>
        rw [hm] at hnil
        cases hnil

theorem mergeCL_cons_term (l : List Char) (rest : List (List Char))
    (ht : l.getLast? = some '\n') : mergeCL (l :: rest) = l :: mergeCL rest := by
  simp [mergeCL, ht]

theorem mergeCL_cons_nonterm (l : List Char) (rest : List (List Char))
    (ht : ¬l.getLast? = some '\n') :
    mergeCL (l :: rest) =
      match mergeCL rest with
      | [] => if l = [] then [] else [l]
      | m :: ms => (l ++ m) :: ms := by
  simp [mergeCL, ht]

/-- A non-terminated clean line is itself a body. -/
theorem CleanLine.body_of_nonterm {l : List Char} (hl : CleanLine l)
    (ht : ¬l.getLast? = some '\n') : IsBody l := by
  obtain ⟨b, hb, rfl | rfl⟩ := hl
  · exact hb
  · rw [List.getLast?_concat] at ht
    exact absurd rfl ht

theorem mergeCL_clean : ∀ L : List (List Char),
    (∀ l ∈ L, CleanLine l) → ∀ x ∈ mergeCL L, CleanLine x := by
  intro L
  induction L with
  | nil => intro _ x hx; cases hx
  | cons l rest ih =>
    intro hcl x hx
    have hcl_l : CleanLine l := hcl l (List.mem_cons_self ..)
    have hcl_rest : ∀ y ∈ rest, CleanLine y := fun y hy => hcl y (List.mem_cons_of_mem _ hy)
    by_cases ht : l.getLast? = some '\n'
    · rw [mergeCL_cons_term l rest ht] at hx
      rcases List.mem_cons.mp hx with rfl | hx
      · exact hcl_l
      · exact ih hcl_rest x hx
    · rw [mergeCL_cons_nonterm l rest ht] at hx
      have hbody : IsBody l := hcl_l.body_of_nonterm ht
      cases hm : mergeCL rest with
      | nil =>
        rw [hm] at hx
        by_cases hl : l = []
        · rw [if_pos hl] at hx
          cases hx
        · rw [if_neg hl, List.mem_singleton] at hx
          subst hx
          exact ⟨x, hbody, Or.inl rfl⟩
      | cons m ms =>
        rw [hm] at hx
        rcases List.mem_cons.mp hx with rfl | hx
        · have hclm : CleanLine m := ih hcl_rest m (hm ▸ List.mem_cons_self ..)
          obtain ⟨b2, hb2, hc | hc⟩ := hclm
          · exact ⟨l ++ b2, hbody.append hb2, Or.inl (by rw [hc])⟩
          · exact ⟨l ++ b2, hbody.append hb2, Or.inr (by rw [hc, List.append_assoc])⟩
        · exact ih hcl_rest x (hm ▸ List.mem_cons_of_mem _ hx)

theorem mergeCL_dropLast_term : ∀ L : List (List Char),
    ∀ x ∈ (mergeCL L).dropLast, x.getLast? = some '\n' := by
  intro L
  induction L with
  | nil => intro x hx; cases hx
  | cons l rest ih =>
    intro x hx
    by_cases ht : l.getLast? = some '\n'
    · rw [mergeCL_cons_term l rest ht] at hx
      cases hm : mergeCL rest with
      | nil =>
        rw [hm] at hx
        cases hx
      | cons m ms =>
        rw [hm, List.dropLast_cons₂] at hx
        rcases List.mem_cons.mp hx with rfl | hx
        · exact ht
        · exact ih x (hm ▸ hx)
    · rw [mergeCL_cons_nonterm l rest ht] at hx
      cases hm : mergeCL rest with
      | nil =>
        rw [hm] at hx
        by_cases hl : l = []
        · rw [if_pos hl] at hx
          cases hx
        · rw [if_neg hl] at hx
          cases hx
      | cons m ms =>
        rw [hm] at hx
        cases hms : ms with
        | nil =>
          rw [hms] at hx
          cases hx
        | cons y ys =>
          rw [hms, List.dropLast_cons₂] at hx
          rcases List.mem_cons.mp hx with rfl | hx
          · have hmterm : m.getLast? = some '\n' := by
              refine ih m ?_
              rw [hm, hms, List.dropLast_cons₂]
              exact List.mem_cons_self ..
            rw [List.getLast?_append, hmterm]
            rfl
          · refine ih x ?_
            rw [hm, hms, List.dropLast_cons₂]
            exact List.mem_cons_of_mem _ hx

theorem mergeCL_head_blank : ∀ (L : List (List Char)) (m : List Char),
    (mergeCL L).head? = some m → isBlankLine m = true →
    ∃ l, L.head? = some l ∧ isBlankLine l = true := by
  intro L m hm hblank
  cases L with
  | nil => cases hm
  | cons l rest =>
    refine ⟨l, rfl, ?_⟩
    by_cases ht : l.getLast? = some '\n'
    · rw [mergeCL_cons_term l rest ht] at hm
      rw [List.head?_cons] at hm
      cases hm
      exact hblank
    · rw [mergeCL_cons_nonterm l rest ht] at hm
      cases hmg : mergeCL rest with
      | nil =>
        rw [hmg] at hm
        by_cases hl : l = []
        · rw [hl]
          rfl
        · rw [if_neg hl, List.head?_cons] at hm
          cases hm
          exact hblank
      | cons m' ms =>
        rw [hmg, List.head?_cons] at hm
        cases hm
        rw [isBlankLine_append, Bool.and_eq_true] at hblank
        exact hblank.1

theorem getLast?_cons_of_ne_nil {α : Type} (a : α) {l : List α} (h : l ≠ []) :
    (a :: l).getLast? = l.getLast? := by
  cases l with
  | nil => exact absurd rfl h
  | cons b t => rw [List.getLast?_cons_cons]

theorem all_nil_last_blank {rest : List (List Char)}
    (hall : ∀ x ∈ rest, x = []) (hne : rest ≠ []) :
    ∃ r, rest.getLast? = some r ∧ isBlankLine r = true := by
  rcases List.eq_nil_or_concat rest with rfl | ⟨init, r, hr⟩
  · exact absurd rfl hne
  · simp only [List.concat_eq_append] at hr
    subst hr
    refine ⟨r, List.getLast?_concat _, ?_⟩
    rw [hall r (List.mem_append_right _ (List.mem_singleton.mpr rfl))]
    rfl

theorem mergeCL_last_blank : ∀ (L : List (List Char)) (m : List Char),
    (mergeCL L).getLast? = some m → isBlankLine m = true →
    ∃ l, L.getLast? = some l ∧ isBlankLine l = true := by
  intro L
  induction L with
  | nil => intro m hm _; cases hm
  | cons l rest ih =>
    intro m hm hblank
    have hup : ∀ r, rest.getLast? = some r ∧ isBlankLine r = true →
        ∃ r', (l :: rest).getLast? = some r' ∧ isBlankLine r' = true := by
      rintro r ⟨hr, hrb⟩
      have hne : rest ≠ [] := by
        intro h
        rw [h] at hr
        cases hr
      exact ⟨r, by rw [getLast?_cons_of_ne_nil _ hne]; exact hr, hrb⟩
    have hnilcase : mergeCL rest = [] → isBlankLine l = true →
        ∃ r, (l :: rest).getLast? = some r ∧ isBlankLine r = true := by
      intro hmg hlb
      cases hrest : rest with
      | nil => exact ⟨l, rfl, hlb⟩
      | cons r0 rs =>
        rw [hrest] at hmg
        obtain ⟨r, hr1, hr2⟩ := all_nil_last_blank (mergeCL_eq_nil _ hmg) (by simp)
        rw [← hrest] at hr1 ⊢
        exact hup r ⟨by rw [hrest]; rw [hrest] at hr1; exact hr1, hr2⟩
    by_cases ht : l.getLast? = some '\n'
    · rw [mergeCL_cons_term l rest ht] at hm
      cases hmg : mergeCL rest with
      | nil =>
        rw [hmg] at hm
        have hm' : m = l := by
          have : some l = some m := by simpa using hm
          exact (Option.some.inj this).symm
        subst hm'
        exact hnilcase hmg hblank
      | cons m' ms =>
        rw [hmg, getLast?_cons_of_ne_nil _ (by simp)] at hm
        obtain ⟨r, hr1, hr2⟩ := ih m (by rw [hmg]; exact hm) hblank
        exact hup r ⟨hr1, hr2⟩
    · rw [mergeCL_cons_nonterm l rest ht] at hm
      cases hmg : mergeCL rest with
      | nil =>
        rw [hmg] at hm
        by_cases hl : l = []
        · rw [if_pos hl] at hm
          cases hm
        · rw [if_neg hl] at hm
          have hm' : m = l := by
            have : some l = some m := by simpa using hm
            exact (Option.some.inj this).symm
          subst hm'
          exact hnilcase hmg hblank
      | cons m' ms =>
        rw [hmg] at hm
        cases hms : ms with
        | nil =>
          rw [hms] at hm
          have hm' : m = l ++ m' := by
            have : some (l ++ m') = some m := by simpa using hm
            exact (Option.some.inj this).symm
          subst hm'
          rw [isBlankLine_append, Bool.and_eq_true] at hblank
          obtain ⟨r, hr1, hr2⟩ := ih m' (by rw [hmg, hms]; rfl) hblank.2
          exact hup r ⟨hr1, hr2⟩
        | cons y ys =>
          rw [hms, List.getLast?_cons_cons] at hm
          obtain ⟨r, hr1, hr2⟩ := ih m (by
            rw [hmg, hms, List.getLast?_cons_cons]
            exact hm) hblank
          exact hup r ⟨hr1, hr2⟩

theorem mergeCL_chain : ∀ L : List (List Char),
    List.Chain' notBothBlank L → List.Chain' notBothBlank (mergeCL L) := by
  intro L
  induction L with
  | nil => intro _; simp [mergeCL]
  | cons l rest ih =>
    intro hch
    have htail : List.Chain' notBothBlank rest := hch.tail
    by_cases ht : l.getLast? = some '\n'
    · rw [mergeCL_cons_term l rest ht, List.chain'_cons']
      refine ⟨?_, ih htail⟩
      intro y hy
      by_cases hyb : isBlankLine y = true
      · obtain ⟨l', hl', hl'b⟩ := mergeCL_head_blank rest y hy hyb
        rcases (List.chain'_cons'.mp hch).1 l' hl' with h1 | h2
        · exact Or.inl h1
        · rw [h2] at hl'b
          cases hl'b
      · exact Or.inr (Bool.not_eq_true _ ▸ hyb)
    · rw [mergeCL_cons_nonterm l rest ht]
      cases hmg : mergeCL rest with
      | nil =>
        by_cases hl : l = []
        · rw [if_pos hl]
          simp
        · rw [if_neg hl]
          simp
      | cons m ms =>
        have hch' : List.Chain' notBothBlank (m :: ms) := hmg ▸ ih htail
        rw [List.chain'_cons'] at hch'
        rw [List.chain'_cons']
        refine ⟨?_, hch'.2⟩
        intro y hy
        rcases hch'.1 y hy with h1 | h2
        · exact Or.inl (by rw [isBlankLine_append, h1, Bool.and_false])
        · exact Or.inr h2

theorem braceOk_of_cons {l : List Char} {rest : List (List Char)}
    (hbr : BraceOk (l :: rest)) (hne : rest ≠ []) : BraceOk rest := by
  intro m hm hstrip m' hm'
  have hdne : rest.dropLast ≠ [] := by
    intro h
    rw [h] at hm'
    cases hm'
  refine hbr m ?_ hstrip m' ?_
  · rw [getLast?_cons_of_ne_nil _ hne]
    exact hm
  · rw [List.dropLast_cons_of_ne_nil hne, getLast?_cons_of_ne_nil _ hdne]
    exact hm'

theorem mergeCL_singleton_brace : ∀ (L : List (List Char)) (m : List Char),
    (∀ l ∈ L, CleanLine l) →
    (∀ r, L.getLast? = some r → isBlankLine r = false) →
    mergeCL L = [m] → stripAll m = ['}'] →
    ∃ pre lst, L = pre ++ [lst] ∧ (∀ x ∈ pre, x = []) ∧ stripAll lst = ['}'] := by
  intro L
  induction L with
  | nil => intro m _ _ hm _; cases hm
  | cons l rest ih =>
    intro m hcl hlast hm hstrip
    have hcl_rest : ∀ y ∈ rest, CleanLine y :=
      fun y hy => hcl y (List.mem_cons_of_mem _ hy)
    have hrest_nil_of_merge : mergeCL rest = [] → rest = [] := by
      intro hmg
      by_contra hne
      obtain ⟨r, hr1, hr2⟩ := all_nil_last_blank (mergeCL_eq_nil _ hmg) hne
      have := hlast r (by rw [getLast?_cons_of_ne_nil _ hne]; exact hr1)
      rw [this] at hr2
      cases hr2
    by_cases ht : l.getLast? = some '\n'
    · rw [mergeCL_cons_term l rest ht] at hm
      rw [List.cons.injEq] at hm
      obtain ⟨rfl, hmg⟩ := hm
      have hrest := hrest_nil_of_merge hmg
      subst hrest
      exact ⟨[], l, rfl, (by intro x hx; cases hx), hstrip⟩
    · rw [mergeCL_cons_nonterm l rest ht] at hm
      have hbody : IsBody l := (hcl l (List.mem_cons_self ..)).body_of_nonterm ht
      cases hmg : mergeCL rest with
      | nil =>
        rw [hmg] at hm
        by_cases hl : l = []
        · rw [if_pos hl] at hm
          cases hm
        · rw [if_neg hl, List.cons.injEq] at hm
          obtain ⟨rfl, -⟩ := hm
          have hrest := hrest_nil_of_merge hmg
          subst hrest
          exact ⟨[], l, rfl, (by intro x hx; cases hx), hstrip⟩
      | cons m' ms =>
        rw [hmg, List.cons.injEq] at hm
        obtain ⟨hlm, hms⟩ := hm
        subst hms
        have hrestne : rest ≠ [] := by
          rintro rfl
          cases hmg
        have hlast_rest : ∀ r, rest.getLast? = some r → isBlankLine r = false :=
          fun r hr => hlast r (by rw [getLast?_cons_of_ne_nil _ hrestne]; exact hr)
        rw [← hlm] at hstrip
        rcases stripAll_append_brace hstrip with ⟨hsl, hbm'⟩ | ⟨hbl, hsm'⟩
        · -- the brace would be in the body l, with m' blank: impossible,
          -- since m' is then the blank last line of the merged rest
          have hlastm' : (mergeCL rest).getLast? = some m' := by
            rw [hmg]
            rfl
          obtain ⟨r, hr1, hr2⟩ := mergeCL_last_blank rest m' hlastm' hbm'
          have := hlast_rest r hr1
          rw [this] at hr2
          cases hr2
        · have hlnil : l = [] := hbody.blank_eq_nil hbl
          obtain ⟨pre', lst, hr, hpre, hslst⟩ :=
            ih m' hcl_rest hlast_rest hmg hsm'
          refine ⟨l :: pre', lst, ?_, ?_, hslst⟩
          · rw [hr, List.cons_append]
          · intro x hx
            rcases List.mem_cons.mp hx with rfl | hx
            · exact hlnil
            · exact hpre x hx

theorem mergeCL_braceOk : ∀ L : List (List Char),
    (∀ l ∈ L, CleanLine l) →
    (∀ r, L.getLast? = some r → isBlankLine r = false) →
    BraceOk L → BraceOk (mergeCL L) := by
  intro L
  induction L with
  | nil =>
    intro _ _ _ m hm
    cases hm
  | cons l rest ih =>
    intro hcl hlast hbr m hm hstrip m' hm'
    have hcl_l : CleanLine l := hcl l (List.mem_cons_self ..)
    have hcl_rest : ∀ y ∈ rest, CleanLine y :=
      fun y hy => hcl y (List.mem_cons_of_mem _ hy)
    by_cases ht : l.getLast? = some '\n'
    · rw [mergeCL_cons_term l rest ht] at hm hm'
      cases hmg : mergeCL rest with
      | nil =>
        rw [hmg] at hm'
        simp at hm'
      | cons m₁ ms₁ =>
        rw [hmg] at hm hm'
        have hrestne : rest ≠ [] := by
          rintro rfl
          cases hmg
        have hlast_rest : ∀ r, rest.getLast? = some r → isBlankLine r = false :=
          fun r hr => hlast r (by rw [getLast?_cons_of_ne_nil _ hrestne]; exact hr)
        have hbr_rest := braceOk_of_cons hbr hrestne
        rw [List.getLast?_cons_cons] at hm
        rw [List.dropLast_cons₂] at hm'
        cases hms₁ : ms₁ with
        | nil =>
          rw [hms₁] at hm hm'
          have hmm₁ : m = m₁ := by
            have : some m₁ = some m := by simpa using hm
            exact (Option.some.inj this).symm
          have hm'l : m' = l := by
            have : some l = some m' := by simpa using hm'
            exact (Option.some.inj this).symm
          subst hmm₁
          subst hm'l
          obtain ⟨pre, lst, hrd, hpre, hslst⟩ :=
            mergeCL_singleton_brace rest m hcl_rest hlast_rest
              (by rw [hmg, hms₁]) hstrip
          cases hpre' : pre with
          | nil =>
            rw [hpre'] at hrd
            rw [List.nil_append] at hrd
            refine hbr lst ?_ hslst m' ?_
            · rw [hrd]
              rfl
            · rw [hrd]
              rfl
          | cons p ps =>
            rw [hpre'] at hrd hpre
            rcases List.eq_nil_or_concat (p :: ps) with habs | ⟨init, lp, hinit⟩
            · cases habs
            · simp only [List.concat_eq_append] at hinit
              have hlp_nil : lp = [] :=
                hpre lp (hinit ▸ List.mem_append_right _ (List.mem_singleton.mpr rfl))
              have hlastL : (m' :: rest).getLast? = some lst := by
                rw [hrd, show m' :: ((p :: ps) ++ [lst]) =
                  (m' :: p :: ps) ++ [lst] by rfl]
                exact List.getLast?_concat _
              have hpreL : (m' :: rest).dropLast.getLast? = some lp := by
                rw [hrd, show m' :: ((p :: ps) ++ [lst]) =
                  (m' :: p :: ps) ++ [lst] by rfl, List.dropLast_concat,
                  List.getLast?_cons_cons, hinit,
                  show (init ++ [lp] : List (List Char)) = init ++ [lp] from rfl]
                exact List.getLast?_concat _
              have := hbr lst hlastL hslst lp hpreL
              rw [hlp_nil] at this
              cases this
        | cons y ys =>
          rw [hms₁] at hm hm'
          have hdne : (m₁ :: y :: ys).dropLast ≠ [] := by
            rw [List.dropLast_cons₂]
            simp
          refine ih hcl_rest hlast_rest hbr_rest m ?_ hstrip m' ?_
          · rw [hmg, hms₁, List.getLast?_cons_cons]
            exact hm
          · rw [hmg, hms₁]
            rw [getLast?_cons_of_ne_nil _ hdne] at hm'
            exact hm'
    · rw [mergeCL_cons_nonterm l rest ht] at hm hm'
      have hbody : IsBody l := hcl_l.body_of_nonterm ht
      cases hmg : mergeCL rest with
      | nil =>
        rw [hmg] at hm hm'
        by_cases hl : l = []
        · rw [if_pos hl] at hm
          cases hm
        · rw [if_neg hl] at hm'
          simp at hm'
      | cons m₁ ms₁ =>
        rw [hmg] at hm hm'
        have hrestne : rest ≠ [] := by
          rintro rfl
          cases hmg
        have hlast_rest : ∀ r, rest.getLast? = some r → isBlankLine r = false :=
          fun r hr => hlast r (by rw [getLast?_cons_of_ne_nil _ hrestne]; exact hr)
        have hbr_rest := braceOk_of_cons hbr hrestne
        cases hms₁ : ms₁ with
        | nil =>
          rw [hms₁] at hm'
          simp at hm'
        | cons y ys =>
          rw [hms₁] at hm hm'
          rw [List.getLast?_cons_cons] at hm
          rw [List.dropLast_cons₂] at hm'
          cases hys : ys with
          | nil =>
            rw [hys] at hm hm'
            have hmy : m = y := by
              have : some y = some m := by simpa using hm
              exact (Option.some.inj this).symm
            have hm'2 : m' = l ++ m₁ := by
              have : some (l ++ m₁) = some m' := by simpa using hm'
              exact (Option.some.inj this).symm
            subst hmy
            subst hm'2
            by_cases hl : l = []
            · subst hl
              rw [List.nil_append]
              refine ih hcl_rest hlast_rest hbr_rest m ?_ hstrip m₁ ?_
              · rw [hmg, hms₁, hys, List.getLast?_cons_cons]
                exact hm
              · rw [hmg, hms₁, hys, List.dropLast_cons₂]
                rfl
            · rw [isBlankLine_append, hbody.nonblank_of_ne_nil hl]
              rfl
          | cons z zs =>
            rw [hys] at hm hm'
            rw [List.getLast?_cons_cons] at hm
            rw [List.dropLast_cons₂, List.getLast?_cons_cons] at hm'
            refine ih hcl_rest hlast_rest hbr_rest m ?_ hstrip m' ?_
            · rw [hmg, hms₁, hys, List.getLast?_cons_cons,
                List.getLast?_cons_cons]
              exact hm
            · rw [hmg, hms₁, hys, List.dropLast_cons₂, List.dropLast_cons₂,
                getLast?_cons_of_ne_nil _ (by simp)]
              exact hm'

/-! ## Whitespace cleaning: re-splitting the joined clean lines -/

theorem splitAux_nonboundary_accum :
    ∀ (b z acc : List Char), (∀ c ∈ b, isLineBoundary c = false) →
      splitAux (b ++ z) acc = splitAux z (b.reverse ++ acc) := by
  intro b
  induction b with
  | nil =>
    intro z acc _
    rfl
  | cons c b' ih =>
    intro z acc h
    have hc : isLineBoundary c = false := h c (List.mem_cons_self ..)
    rw [List.cons_append, splitAux_cons_nonboundary c _ acc hc,
      ih z (c :: acc) (fun d hd => h d (List.mem_cons_of_mem _ hd)),
      List.reverse_cons, List.append_assoc, List.singleton_append]

theorem splitLinesKeepEnds_body_newline (b z : List Char)
    (hb : ∀ c ∈ b, isLineBoundary c = false) :
    splitLinesKeepEnds (b ++ '\n' :: z) =
      (b ++ ['\n']) :: splitLinesKeepEnds z := by
  unfold splitLinesKeepEnds
  rw [splitAux_nonboundary_accum b ('\n' :: z) [] hb,
    splitAux_cons_boundary_not_r '\n' z (b.reverse ++ []) (by decide) (by decide)]
  simp

theorem splitLinesKeepEnds_body_only (b : List Char) (hne : b ≠ [])
    (hb : ∀ c ∈ b, isLineBoundary c = false) :
    splitLinesKeepEnds b = [b] := by
  unfold splitLinesKeepEnds
  conv_lhs => rw [show b = b ++ [] from (List.append_nil b).symm]
  rw [splitAux_nonboundary_accum b [] [] hb, splitAux_nil]
  simp [hne]

theorem splitLinesKeepEnds_flatten_term :
    ∀ (M₀ : List (List Char)) (z : List Char),
      (∀ m ∈ M₀, ∃ bm, (∀ c ∈ bm, isLineBoundary c = false) ∧ m = bm ++ ['\n']) →
      splitLinesKeepEnds (M₀.flatten ++ z) = M₀ ++ splitLinesKeepEnds z := by
  intro M₀
  induction M₀ with
  | nil =>
    intro z _
    simp
  | cons m M' ih =>
    intro z hM
    obtain ⟨bm, hbm, hm⟩ := hM m (List.mem_cons_self ..)
    rw [hm, List.flatten_cons, List.append_assoc, List.append_assoc,
      List.singleton_append,
      splitLinesKeepEnds_body_newline bm _ hbm,
      ih z (fun q hq => hM q (List.mem_cons_of_mem _ hq)), List.cons_append]

theorem rstripNl_append_newline (l : List Char) :
    rstripNl (l ++ ['\n']) = rstripNl l :=
  dropTrailing_append_blank _ l ['\n'] (by
    intro x hx
    rw [List.mem_singleton] at hx
    subst hx
    decide)

theorem rstripNl_eq_self {l : List Char}
    (h : ∀ c, l.getLast? = some c → isPySpace c = false) : rstripNl l = l := by
  refine dropTrailing_eq_self _ _ ?_
  intro c hc
  show decide (c = '\n') = false
  simp only [decide_eq_false_iff_not]
  intro hcn
  subst hcn
  have := h '\n' hc
  exact absurd this (by decide)

/-- A body that strips to `"}"` in fact ends in `'}'`: its trailing blank
part is empty because bodies do not end in whitespace. -/
theorem IsBody.stripAll_brace_getLast {b : List Char} (hb : IsBody b)
    (h : stripAll b = ['}']) : b.getLast? = some '}' := by
  obtain ⟨a, t, heq, _, htb⟩ := stripAll_brace_decomp h
  have ht : t = [] := by
    cases hlt : t.getLast? with
    | none => simpa using hlt
    | some c =>
      have hcs : isPySpace c = true := by
        rw [isBlankLine_iff_all] at htb
        exact htb c (List.mem_of_getLast?_eq_some hlt)
      have hbc : b.getLast? = some c := by
        rw [heq, List.getLast?_append, hlt]
        rfl
      have := hb.2 c hbc
      rw [hcs] at this
      cases this
  subst ht
  rw [heq]
  simp [List.getLast?_concat]

theorem map_step1Line_eq_self (ls : List (List Char))
    (h : ∀ l ∈ ls, CleanLine l) : ls.map step1Line = ls := by
  induction ls with
  | nil => rfl
  | cons a as ih =>
    rw [List.map_cons, step1Line_eq_self (h a (List.mem_cons_self ..)),
      ih (fun l hl => h l (List.mem_cons_of_mem _ hl))]

/-- Replacing the last element of a `notBothBlank` chain by any nonblank
line preserves the chain. -/
theorem chain_concat_replace {M₀ : List (List Char)} {w b' : List Char}
    (h : List.Chain' notBothBlank (M₀ ++ [w]))
    (hb : isBlankLine b' = false) :
    List.Chain' notBothBlank (M₀ ++ [b']) := by
  rw [List.chain'_append] at h ⊢
  refine ⟨h.1, List.chain'_singleton _, ?_⟩
  intro x _ y hy
  simp only [List.head?_cons, Option.mem_def, Option.some.injEq] at hy
  subst hy
  exact Or.inr hb

/-- When the re-split of a text is a clean, chained, nonblank-ended line
list whose brace step does nothing new, the whole line-cleaning pass
reproduces that list. -/
theorem cleanLines_reconstruct (z : List Char) (M₀ : List (List Char))
    (b' : List Char)
    (hsplit : splitLinesKeepEnds z = M₀ ++ [b'])
    (hcl : ∀ l ∈ M₀ ++ [b'], CleanLine l)
    (hch : List.Chain' notBothBlank (M₀ ++ [b']))
    (hb' : isBlankLine b' = false)
    (hbrace : stripAll b' = ['}'] →
      ∀ m', M₀.getLast? = some m' → isBlankLine m' = false) :
    cleanLines z = M₀ ++ [b'] := by
  unfold cleanLines
  rw [hsplit, map_step1Line_eq_self _ hcl,
    collapseBlanks_eq_self _ false hch (by intro h; cases h),
    dropTrailing_concat_neg _ _ _ hb',
    removeBlanksBeforeFinalBrace_concat]
  by_cases hsb : stripAll b' = ['}']
  · rw [if_pos hsb, dropTrailing_eq_self _ _ (hbrace hsb)]
  · rw [if_neg hsb]

/-- Idempotence of the whole whitespace-cleaning transformation: the
cleaned line list, with non-terminated lines fused, re-splits to itself
(up to the final newline decision), and every cleaning stage fixes it. -/
theorem cleanContent_idem (x : List Char) :
    cleanContent (cleanContent x) = cleanContent x := by
  have hcleanM : ∀ m ∈ mergeCL (cleanLines x), CleanLine m :=
    mergeCL_clean _ (cleanLines_clean x)
  have hchainM : List.Chain' notBothBlank (mergeCL (cleanLines x)) :=
    mergeCL_chain _ (cleanLines_chain x)
  have hlastnb : ∀ r, (mergeCL (cleanLines x)).getLast? = some r →
      isBlankLine r = false := by
    intro r hr
    by_contra hcon
    rw [Bool.not_eq_false] at hcon
    obtain ⟨l, hl1, hl2⟩ := mergeCL_last_blank _ r hr hcon
    rw [cleanLines_last_nonblank x l hl1] at hl2
    cases hl2
  have hbraceOkM : BraceOk (mergeCL (cleanLines x)) :=
    mergeCL_braceOk _ (cleanLines_clean x) (cleanLines_last_nonblank x)
      (cleanLines_braceOk x)
  have htermM : ∀ m ∈ (mergeCL (cleanLines x)).dropLast,
      m.getLast? = some '\n' := mergeCL_dropLast_term _
  have hflat : (mergeCL (cleanLines x)).flatten = (cleanLines x).flatten :=
    mergeCL_flatten _
  rcases List.eq_nil_or_concat (mergeCL (cleanLines x)) with hnil | ⟨M₀, w, hM⟩
  · have h0 : (cleanLines x).flatten = [] := by
      rw [← hflat, hnil]
      rfl
    have hy : cleanContent x = [] := by
      simp [cleanContent, finalize, h0, rstripNl, dropTrailing]
    rw [hy]
    rfl
  · simp only [List.concat_eq_append] at hM
    have hw_clean : CleanLine w :=
      hcleanM w (by rw [hM]; exact List.mem_append_right _ (List.mem_singleton.mpr rfl))
    have hw_nb : isBlankLine w = false :=
      hlastnb w (by rw [hM]; exact List.getLast?_concat _)
    have hshape : ∀ m ∈ M₀,
        ∃ bm, (∀ c ∈ bm, isLineBoundary c = false) ∧ m = bm ++ ['\n'] := by
      intro m hm
      have hterm : m.getLast? = some '\n' :=
        htermM m (by rw [hM, List.dropLast_concat]; exact hm)
      obtain ⟨bm, hbm, hcase | hcase⟩ :=
        hcleanM m (by rw [hM]; exact List.mem_append_left _ hm)
      · subst hcase
        have := hbm.2 '\n' hterm
        exact absurd this (by decide)
      · exact ⟨bm, hbm.1, hcase⟩
    obtain ⟨b, hbody, hwcase⟩ := hw_clean
    have hb_nb : isBlankLine b = false := by
      rcases hwcase with rfl | rfl
      · exact hw_nb
      · rw [isBlankLine_append, show isBlankLine ['\n'] = true from by decide,
          Bool.and_true] at hw_nb
        exact hw_nb
    have hb_ne : b ≠ [] := by
      intro h
      rw [h] at hb_nb
      cases hb_nb
    obtain ⟨cb, hcb⟩ : ∃ cb, b.getLast? = some cb := by
      cases hgb : b.getLast? with
      | none => exact absurd (by simpa using hgb) hb_ne
      | some cb => exact ⟨cb, rfl⟩
    have hcb_ps : isPySpace cb = false := hbody.2 cb hcb
    have hlastflat : (M₀.flatten ++ b).getLast? = some cb := by
      rw [List.getLast?_append, hcb]
      rfl
    have hflne : M₀.flatten ++ b ≠ [] := by
      intro h0
      rw [h0] at hlastflat
      cases hlastflat
    have hflnb : ∀ c, (M₀.flatten ++ b).getLast? = some c →
        isPySpace c = false := by
      intro c hc
      rw [hlastflat] at hc
      injection hc with h
      subst h
      exact hcb_ps
    have hrsflat : rstripNl (M₀.flatten ++ b) = M₀.flatten ++ b :=
      rstripNl_eq_self hflnb
    have hflatw : (cleanLines x).flatten = M₀.flatten ++ w := by
      rw [← hflat, hM]
      simp
    have hnc : rstripNl ((cleanLines x).flatten) = M₀.flatten ++ b := by
      rw [hflatw]
      rcases hwcase with rfl | rfl
      · exact hrsflat
      · rw [← List.append_assoc, rstripNl_append_newline]
        exact hrsflat
    have hbraceM₀ : stripAll b = ['}'] →
        ∀ m', M₀.getLast? = some m' → isBlankLine m' = false := by
      intro hsb m' hm'
      refine hbraceOkM w ?_ ?_ m' ?_
      · rw [hM]
        exact List.getLast?_concat _
      · rcases hwcase with rfl | rfl
        · exact hsb
        · rw [stripAll_append_newline]
          exact hsb
      · rw [hM, List.dropLast_concat]
        exact hm'
    by_cases hbr : cb = '}'
    · -- the cleaned text ends in a closing brace, so no newline is appended
      have hy : cleanContent x = M₀.flatten ++ b := by
        simp only [cleanContent, finalize]
        rw [hnc, if_neg]
        rintro ⟨_, h2⟩
        exact h2 (by rw [hlastflat, hbr])
      have hclMb : ∀ l ∈ M₀ ++ [b], CleanLine l := by
        intro l hl
        rcases List.mem_append.mp hl with h | h
        · exact hcleanM l (by rw [hM]; exact List.mem_append_left _ h)
        · rw [List.mem_singleton] at h
          rw [h]
          exact ⟨b, hbody, Or.inl rfl⟩
      have hchMb : List.Chain' notBothBlank (M₀ ++ [b]) :=
        chain_concat_replace (hM ▸ hchainM) hb_nb
      have hclz : cleanLines (M₀.flatten ++ b) = M₀ ++ [b] :=
        cleanLines_reconstruct _ M₀ b
          (by rw [splitLinesKeepEnds_flatten_term M₀ b hshape,
                splitLinesKeepEnds_body_only b hb_ne hbody.1])
          hclMb hchMb hb_nb hbraceM₀
      have hcc : cleanContent (M₀.flatten ++ b) = M₀.flatten ++ b := by
        unfold cleanContent
        rw [hclz]
        simp only [finalize]
        have hfl : (M₀ ++ [b]).flatten = M₀.flatten ++ b := by simp
        rw [hfl, hrsflat, if_neg]
        rintro ⟨_, h2⟩
        exact h2 (by rw [hlastflat, hbr])
      rw [hy]
      exact hcc
    · -- the cleaned text does not end in a closing brace: newline appended
      have hy : cleanContent x = (M₀.flatten ++ b) ++ ['\n'] := by
        simp only [cleanContent, finalize]
        rw [hnc, if_pos]
        refine ⟨hflne, ?_⟩
        intro hcon
        rw [hlastflat] at hcon
        injection hcon with h
        exact hbr h
      have hb'_nb : isBlankLine (b ++ ['\n']) = false := by
        rw [isBlankLine_append, hb_nb]
        rfl
      have hclMb' : ∀ l ∈ M₀ ++ [b ++ ['\n']], CleanLine l := by
        intro l hl
        rcases List.mem_append.mp hl with h | h
        · exact hcleanM l (by rw [hM]; exact List.mem_append_left _ h)
        · rw [List.mem_singleton] at h
          rw [h]
          exact ⟨b, hbody, Or.inr rfl⟩
      have hchMb' : List.Chain' notBothBlank (M₀ ++ [b ++ ['\n']]) :=
        chain_concat_replace (hM ▸ hchainM) hb'_nb
      have hclz' : cleanLines (M₀.flatten ++ (b ++ ['\n'])) =
          M₀ ++ [b ++ ['\n']] := by
        refine cleanLines_reconstruct _ M₀ (b ++ ['\n']) ?_
          hclMb' hchMb' hb'_nb ?_
        · rw [splitLinesKeepEnds_flatten_term M₀ _ hshape,
            splitLinesKeepEnds_body_newline b [] hbody.1]
          rfl
        · intro hsb
          rw [stripAll_append_newline] at hsb
          exact hbraceM₀ hsb
      have hcc : cleanContent (M₀.flatten ++ (b ++ ['\n'])) =
          M₀.flatten ++ (b ++ ['\n']) := by
        unfold cleanContent
        rw [hclz']
        simp only [finalize]
        have hfl : (M₀ ++ [b ++ ['\n']]).flatten =
            (M₀.flatten ++ b) ++ ['\n'] := by simp
        rw [hfl, rstripNl_append_newline, hrsflat, if_pos]
        · rw [List.append_assoc]
        · refine ⟨hflne, ?_⟩
          intro hcon
          rw [hlastflat] at hcon
          injection hcon with h
          exact hbr h
      rw [hy, List.append_assoc]
      exact hcc

/-! ## Claims C9 and C10: cleanup-whitespace.py -/

/-- C9: the whitespace-cleaning transformation of `clean_java_file` is
idempotent — applying it twice yields the same content as applying it
once — so a second invocation on an already-cleaned file returns `false`
and leaves the content unchanged. -/
theorem c9_clean_idempotent (content : List Char) :
    cleanContent (cleanContent content) = cleanContent content ∧
    clean_java_file false (cleanContent content) =
      (false, cleanContent content) :=
  ⟨cleanContent_idem content,
    by simp [clean_java_file, cleanContent_idem content]⟩

/-- C10: `clean_java_file` returns `true` exactly when no exception
occurred and the cleaned content differs from the original; whenever it
returns `false` — including the exception case — the file's content is
unchanged, and whenever it returns `true` the file holds exactly the
cleaned content. -/
theorem c10_returns_true_iff_changed (ioError : Bool) (content : List Char) :
    ((clean_java_file ioError content).1 = true ↔
      ioError = false ∧ cleanContent content ≠ content) ∧
    ((clean_java_file ioError content).1 = false →
      (clean_java_file ioError content).2 = content) ∧
    ((clean_java_file ioError content).1 = true →
      (clean_java_file ioError content).2 = cleanContent content) := by
  cases ioError
  · by_cases hch : cleanContent content = content
    · simp [clean_java_file, hch]
    · simp [clean_java_file, hch]
  · simp [clean_java_file]

/-- The C10 equivalence evaluated on a concrete file: a line with trailing
whitespace is reported modified and rewritten to its cleaned form. -/
theorem c10_returns_true_iff_changed_witness :
    (clean_java_file false ['a', ' ']).1 = true ∧
    (clean_java_file false ['a', ' ']).2 = cleanContent ['a', ' '] := by
  have h := c10_returns_true_iff_changed false ['a', ' ']
  have ht : (clean_java_file false ['a', ' ']).1 = true :=
    h.1.mpr ⟨rfl, by decide⟩
  exact ⟨ht, h.2.2 ht⟩

end Juneau
